import Mathlib

/-!
Formal model of the gocraft voxel world cache hierarchy.

This file gives a shallow embedding, in Lean 4, of the parts of the gocraft
client that manage the voxel world: the integer block coordinates and their
chunk decomposition (chunk.go), the in-memory `Chunk` entity and its
panic-guarded accessors, the block-type predicates (world.go), the
LRU-bounded chunk store (`World`), the durable bolt-backed `Store` with its
little-endian key encoding and ordered-cursor chunk scan (store.go), the
chunk materialization pipeline of `World.Chunk` together with the remote
fetch of rpc.go, the procedural generator `makeChunkMap`, and the mesh-cache
update pass and frustum visibility test of the block renderer.

Machine integers of the Go source are modelled as unbounded `Int` with
explicit reduction modulo 2^32 where the source truncates to 32 bits
(the database key and value encodings).  `log.Panicf` branches are modelled
by `Option`: a `none` result stands for a panic.  Go maps and `sync.Map`s
are modelled as association lists with replace-on-write semantics, and the
external ordered key-value store (boltdb) and LRU cache (hashicorp
golang-lru), which are dependencies rather than sources of this repository,
are modelled from their documented contracts where noted.
-/

set_option maxHeartbeats 1000000

namespace Gocraft

/-- Integer block / chunk coordinate, from chunk.go: `type Vec3 struct { X, Y, Z int }`. -/
structure Vec3 where
  X : Int
  Y : Int
  Z : Int
deriving DecidableEq, Repr

/-- Chunk footprint width, from chunk.go: `ChunkWidth = 32`. -/
def ChunkWidth : Int := 32

/-- Chunk coordinate of a block, from chunk.go `Vec3.Chunkid`:
floor division of X and Z by `ChunkWidth`, Y forced to 0.
(`int(math.Floor(float64(v.X) / ChunkWidth))` is exact floor division
on the representable range.) -/
def Vec3.Chunkid (v : Vec3) : Vec3 :=
  ⟨Int.fdiv v.X ChunkWidth, 0, Int.fdiv v.Z ChunkWidth⟩

/-- Plant predicate, from world.go `IsPlant`: ids 17..31. -/
def IsPlant (tp : Int) : Bool :=
  if tp ≥ 17 ∧ tp ≤ 31 then true else false

/-- Transparency predicate, from world.go `IsTransparent`:
plants, and the ids -1, 0, 10, 15. -/
def IsTransparent (tp : Int) : Bool :=
  if IsPlant tp then true
  else if tp = -1 then true
  else if tp = 0 then true
  else if tp = 10 then true
  else if tp = 15 then true
  else false

/-- Obstacle predicate, from world.go `IsObstacle`: plants are not obstacles,
-1 is an obstacle, 0 is not, everything else is. -/
def IsObstacle (tp : Int) : Bool :=
  if IsPlant tp then false
  else if tp = -1 then true
  else if tp = 0 then false
  else true

example : IsObstacle (-1) = true := by decide
example : IsTransparent (-1) = true := by decide
example : IsObstacle 3 = true := by decide
example : IsTransparent 15 = true := by decide
example : IsObstacle 17 = false := by decide

/-- C8 counterexample: the spec claims the unknown/unloaded sentinel -1 is
not an obstacle, but `IsObstacle` in world.go returns true on -1
(`case -1: return true`). -/
theorem c8_unknown_is_obstacle : IsObstacle (-1) = true := by decide

/-- C8 (amended): `IsPlant` holds exactly on 17..31; `IsTransparent` holds
exactly for the unknown sentinel -1, air 0, the water-like id 10, the
leaves-like id 15, and the plant ids; `IsObstacle` holds exactly for the
non-plant, non-air types including the unknown sentinel -1, which the code
treats as an obstacle. -/
theorem c8_predicates :
    (∀ tp : Int, IsPlant tp = true ↔ 17 ≤ tp ∧ tp ≤ 31) ∧
    (∀ tp : Int, IsTransparent tp = true ↔
      (tp = -1 ∨ tp = 0 ∨ tp = 10 ∨ tp = 15 ∨ (17 ≤ tp ∧ tp ≤ 31))) ∧
    (∀ tp : Int, IsObstacle tp = true ↔
      (¬ (17 ≤ tp ∧ tp ≤ 31) ∧ tp ≠ 0)) := by
  refine ⟨?_, ?_, ?_⟩ <;> intro tp <;>
    simp only [IsPlant, IsTransparent, IsObstacle] <;>
    split_ifs <;> simp_all

/-! ## Association-list helpers

Go maps and `sync.Map`s are modelled as association lists with
replace-on-write semantics: `Store` prepends the new binding and drops any
older binding of the same key, `Delete` drops the binding, `Load` finds the
(unique) binding.  The lists produced by these operations never hold two
bindings of one key. -/

section Assoc

variable {α β : Type} [DecidableEq α]

/-- Lookup in an association list (`sync.Map.Load`). -/
def findVal : List (α × β) → α → Option β
  | [], _ => none
  | (k, v) :: rest, b => if k = b then some v else findVal rest b

/-- Replace-on-write insertion (`sync.Map.Store`). -/
def putVal (l : List (α × β)) (k : α) (v : β) : List (α × β) :=
  (k, v) :: l.filter (fun p => decide (p.1 ≠ k))

/-- Deletion (`sync.Map.Delete`). -/
def delVal (l : List (α × β)) (k : α) : List (α × β) :=
  l.filter (fun p => decide (p.1 ≠ k))

theorem findVal_mem {l : List (α × β)} {b : α} {v : β}
    (hf : findVal l b = some v) : (b, v) ∈ l := by
  induction l with
  | nil => simp [findVal] at hf
  | cons p rest ih =>
    rcases p with ⟨k, w⟩
    by_cases hp : k = b
    · subst hp
      simp [findVal] at hf
      exact hf ▸ List.mem_cons_self _ _
    · simp [findVal, hp] at hf
      exact List.mem_cons_of_mem _ (ih hf)

theorem findVal_filter_self (l : List (α × β)) (k : α) :
    findVal (l.filter (fun p => decide (p.1 ≠ k))) k = none := by
  induction l with
  | nil => rfl
  | cons p rest ih =>
    rcases p with ⟨a, w⟩
    rw [List.filter_cons]
    by_cases hp : a = k
    · rw [if_neg (by simp [hp])]; exact ih
    · rw [if_pos (by simp [hp])]
      simp only [findVal]
      rw [if_neg hp]
      exact ih

theorem findVal_filter_ne (l : List (α × β)) (k b : α) (h : b ≠ k) :
    findVal (l.filter (fun p => decide (p.1 ≠ k))) b = findVal l b := by
  induction l with
  | nil => rfl
  | cons p rest ih =>
    rcases p with ⟨a, w⟩
    rw [List.filter_cons]
    by_cases hp : a = k
    · have hab : ¬ a = b := by rw [hp]; exact fun hh => h hh.symm
      rw [if_neg (by simp [hp])]
      simp only [findVal]
      rw [if_neg hab]
      exact ih
    · rw [if_pos (by simp [hp])]
      simp only [findVal]
      by_cases hab : a = b
      · rw [if_pos hab, if_pos hab]
      · rw [if_neg hab, if_neg hab]; exact ih

theorem findVal_putVal_self (l : List (α × β)) (k : α) (v : β) :
    findVal (putVal l k v) k = some v := by
  simp [putVal, findVal]

theorem findVal_delVal_self (l : List (α × β)) (k : α) :
    findVal (delVal l k) k = none := findVal_filter_self l k

theorem findVal_putVal_ne (l : List (α × β)) (k b : α) (v : β)
    (h : b ≠ k) : findVal (putVal l k v) b = findVal l b := by
  have hk : k ≠ b := fun hh => h hh.symm
  simp only [putVal, findVal, if_neg hk]
  exact findVal_filter_ne l k b h

theorem findVal_delVal_ne (l : List (α × β)) (k b : α)
    (h : b ≠ k) : findVal (delVal l k) b = findVal l b :=
  findVal_filter_ne l k b h

theorem filter_ne_idem (l : List (α × β)) (k : α) :
    (l.filter (fun p => decide (p.1 ≠ k))).filter (fun p => decide (p.1 ≠ k))
      = l.filter (fun p => decide (p.1 ≠ k)) := by
  rw [List.filter_filter]
  exact List.filter_congr (by intro p _; by_cases h : p.1 = k <;> simp [h])

theorem putVal_putVal_same (l : List (α × β)) (k : α) (v : β) :
    putVal (putVal l k v) k v = putVal l k v := by
  simp only [putVal, List.filter_cons]
  rw [if_neg (by simp)]
  exact congrArg _ (filter_ne_idem l k)

theorem delVal_delVal_same (l : List (α × β)) (k : α) :
    delVal (delVal l k) k = delVal l k := filter_ne_idem l k

end Assoc

/-! ## Chunk entity

From the current chunk.go (the variant embedded in the repository using a
plain `sync.Map` of blocks): `Chunk` carries its chunk id and a block map;
`Block`, `add` and `del` all `log.Panicf` when the argument coordinate's
derived chunk id differs from the chunk's own id.  A panic is modelled as
`none`. -/

/-- In-memory chunk: its id and the block map (association list model of the
`blocks sync.Map`). -/
structure Chunk where
  id : Vec3
  blocks : List (Vec3 × Int)
deriving DecidableEq, Repr

/-- Chunk constructor, from chunk.go `NewChunk`. -/
def NewChunk (id : Vec3) : Chunk := ⟨id, []⟩

/-- Block read, from chunk.go `Chunk.Block`: panics (`none`) on a wrong-chunk
coordinate, otherwise the stored type, defaulting to 0 when absent. -/
def Chunk.Block (c : Chunk) (id : Vec3) : Option Int :=
  if id.Chunkid ≠ c.id then none
  else some ((findVal c.blocks id).getD 0)

/-- Block insertion, from chunk.go `Chunk.add`: panics (`none`) on a
wrong-chunk coordinate. -/
def Chunk.add (c : Chunk) (id : Vec3) (w : Int) : Option Chunk :=
  if id.Chunkid ≠ c.id then none
  else some ⟨c.id, putVal c.blocks id w⟩

/-- Block deletion, from chunk.go `Chunk.del`: panics (`none`) on a
wrong-chunk coordinate. -/
def Chunk.del (c : Chunk) (id : Vec3) : Option Chunk :=
  if id.Chunkid ≠ c.id then none
  else some ⟨c.id, delVal c.blocks id⟩

/-- C10: for a coordinate whose derived chunk id equals the chunk's id,
`Chunk.Block` is total (the wrong-chunk panic branch is unreachable, as it
also is in `add` and `del`), it returns the stored type when the coordinate
is present and 0 (air) otherwise, and it never introduces the unknown
sentinel -1: whenever no stored block of the chunk is -1, the result is
not -1. -/
theorem c10_chunk_block_total (c : Chunk) (id : Vec3) (w : Int)
    (h : id.Chunkid = c.id) :
    c.Block id = some ((findVal c.blocks id).getD 0) ∧
    ((findVal c.blocks id).getD 0 = 0 ∨
      findVal c.blocks id = some ((findVal c.blocks id).getD 0)) ∧
    ((∀ p ∈ c.blocks, p.2 ≠ -1) → c.Block id ≠ some (-1)) ∧
    (c.add id w).isSome ∧ (c.del id).isSome := by
  refine ⟨by simp [Chunk.Block, h], ?_, ?_, by simp [Chunk.add, h], by simp [Chunk.del, h]⟩
  · cases hf : findVal c.blocks id <;> simp [hf]
  · intro hno hbad
    rw [Chunk.Block, if_neg (by simp [h])] at hbad
    cases hf : findVal c.blocks id with
    | none => rw [hf] at hbad; simp at hbad
    | some v =>
      rw [hf] at hbad
      simp at hbad
      exact hno _ (findVal_mem hf) (by simpa using hbad)

/-- C10 witness: a concrete in-chunk read on a chunk holding one block. -/
theorem c10_chunk_block_total_witness :
    (Chunk.mk ⟨0, 0, 0⟩ [(⟨1, 2, 3⟩, 5)]).Block ⟨1, 2, 3⟩ = some 5 := by
  have h := c10_chunk_block_total (Chunk.mk ⟨0, 0, 0⟩ [(⟨1, 2, 3⟩, 5)]) ⟨1, 2, 3⟩ 7
    (by decide)
  rw [h.1]; decide

/-! ## LRU chunk store

Modelled from the spec: world.go backs the chunk store with the external
`hashicorp/golang-lru` dependency, whose sources are not part of this
repository.  The spec describes the store as a bounded, least-recently-used
map: capacity proportional to the squared render radius, eviction of the
least recently used entry.  Entries are kept most-recently-used first:
`get` returns the value and moves the binding to the front, `add` inserts
or replaces the binding at the front and, when the length then exceeds the
capacity, drops the last (least recently used) binding. -/

/-- Bounded LRU cache of chunks (`lru.Cache` of world.go). -/
structure LRU where
  size : Nat
  entries : List (Vec3 × Chunk)
deriving DecidableEq, Repr

/-- Cache read (`lru.Cache.Get`): marks the binding most recently used. -/
def LRU.get (l : LRU) (k : Vec3) : Option Chunk × LRU :=
  match findVal l.entries k with
  | none => (none, l)
  | some c => (some c, ⟨l.size, (k, c) :: delVal l.entries k⟩)

/-- Cache write (`lru.Cache.Add`): inserts most recently used, evicting the
least recently used binding when the capacity is exceeded. -/
def LRU.add (l : LRU) (k : Vec3) (c : Chunk) : LRU :=
  ⟨l.size,
    if l.size < ((k, c) :: delVal l.entries k).length
    then ((k, c) :: delVal l.entries k).dropLast
    else (k, c) :: delVal l.entries k⟩

/-- World: the chunk store, from world.go
`type World struct { chunks *lru.Cache }`. -/
structure World where
  chunks : LRU
deriving DecidableEq, Repr

/-- World constructor, from world.go `NewWorld`:
`m := (*renderRadius) * (*renderRadius) * 4; chunks, _ := lru.New(m)`. -/
def NewWorld (renderRadius : Nat) : World :=
  ⟨⟨renderRadius * renderRadius * 4, []⟩⟩

/-- Chunk lookup, from world.go `World.loadChunk` (an LRU `Get`). -/
def World.loadChunk (w : World) (id : Vec3) : Option Chunk × World :=
  ((w.chunks.get id).1, ⟨(w.chunks.get id).2⟩)

/-- Chunk insertion, from world.go `World.storeChunk` (an LRU `Add`). -/
def World.storeChunk (w : World) (id : Vec3) (c : Chunk) : World :=
  ⟨w.chunks.add id c⟩

/-- Chunk-store operation: a `loadChunk` or a `storeChunk`, the only two
ways world.go touches the LRU cache. -/
inductive WorldOp where
  | load (id : Vec3)
  | store (id : Vec3) (c : Chunk)
deriving Repr

/-- One chunk-store operation applied to the cache. -/
def applyOp (l : LRU) : WorldOp → LRU
  | .load id => (l.get id).2
  | .store id c => l.add id c

theorem delVal_length_le {α β : Type} [DecidableEq α]
    (l : List (α × β)) (k : α) : (delVal l k).length ≤ l.length :=
  List.length_filter_le _ l

theorem delVal_length_lt {α β : Type} [DecidableEq α]
    (l : List (α × β)) (k : α) (c : β) (h : findVal l k = some c) :
    (delVal l k).length < l.length := by
  induction l with
  | nil => simp [findVal] at h
  | cons p rest ih =>
    rcases p with ⟨a, w⟩
    simp only [delVal, List.filter_cons]
    by_cases ha : a = k
    · rw [if_neg (by simp [ha])]
      exact Nat.lt_succ_of_le (List.length_filter_le _ rest)
    · rw [if_pos (by simp [ha])]
      simp only [findVal] at h
      rw [if_neg ha] at h
      simpa [delVal] using Nat.succ_lt_succ (ih h)

theorem lru_get_size (l : LRU) (k : Vec3) : ((l.get k).2).size = l.size := by
  rcases hf : findVal l.entries k with _ | c <;> simp [LRU.get, hf]

theorem lru_get_length (l : LRU) (k : Vec3)
    (h : l.entries.length ≤ l.size) :
    ((l.get k).2).entries.length ≤ l.size := by
  rcases hf : findVal l.entries k with _ | c
  · simpa [LRU.get, hf] using h
  · have hlt := delVal_length_lt l.entries k c hf
    simp only [LRU.get, hf, List.length_cons]
    omega

theorem lru_add_length (l : LRU) (k : Vec3) (c : Chunk)
    (h : l.entries.length ≤ l.size) :
    ((l.add k c)).entries.length ≤ l.size := by
  have hd : (delVal l.entries k).length ≤ l.entries.length := delVal_length_le _ _
  simp only [LRU.add]
  split
  · rw [List.length_dropLast]
    simp only [List.length_cons]
    omega
  · next hge =>
    simp only [List.length_cons] at hge ⊢
    omega

theorem lru_apply_length (l : LRU) (op : WorldOp)
    (h : l.entries.length ≤ l.size) :
    (applyOp l op).entries.length ≤ (applyOp l op).size ∧
      (applyOp l op).size = l.size := by
  cases op with
  | load id =>
    refine ⟨?_, lru_get_size l id⟩
    simp only [applyOp]
    rw [lru_get_size]
    exact lru_get_length l id h
  | store id c => exact ⟨lru_add_length l id c h, rfl⟩

theorem lru_foldl_length (ops : List WorldOp) (l : LRU)
    (h : l.entries.length ≤ l.size) :
    (ops.foldl applyOp l).entries.length ≤ l.size := by
  induction ops generalizing l with
  | nil => exact h
  | cons op rest ih =>
    have step := lru_apply_length l op h
    simpa [step.2] using ih (applyOp l op) step.1

theorem findVal_none_keys {α β : Type} [DecidableEq α]
    {l : List (α × β)} {k : α} (h : findVal l k = none) :
    ∀ p ∈ l, p.1 ≠ k := by
  intro p hp
  induction l with
  | nil => simp at hp
  | cons q rest ih =>
    rcases q with ⟨a, w⟩
    by_cases ha : a = k
    · simp [findVal, ha] at h
    · simp only [findVal] at h
      rw [if_neg ha] at h
      rcases List.mem_cons.1 hp with hq | hq
      · subst hq; exact ha
      · exact ih h hq

theorem delVal_of_not_mem {α β : Type} [DecidableEq α]
    {l : List (α × β)} {k : α} (h : ∀ p ∈ l, p.1 ≠ k) :
    delVal l k = l := by
  simp only [delVal]
  exact List.filter_eq_self.2 (by intro p hp; simpa using h p hp)

/-- C7: the chunk store created by `NewWorld` with render radius r, under
any sequence of `loadChunk`/`storeChunk` operations, never holds more than
r*r*4 chunks; and an `Add` of a fresh coordinate to a nonempty cache at
capacity keeps every other binding, in order, and evicts exactly the last
(least recently used) one. -/
theorem c7_capacity_and_lru_eviction (renderRadius : Nat) (ops : List WorldOp)
    (l : LRU) (k : Vec3) (c : Chunk)
    (hcap : l.entries.length = l.size) (hpos : 0 < l.size)
    (hnew : findVal l.entries k = none) :
    (ops.foldl applyOp (NewWorld renderRadius).chunks).entries.length
        ≤ renderRadius * renderRadius * 4 ∧
    (l.add k c).entries = (k, c) :: l.entries.dropLast := by
  constructor
  · exact lru_foldl_length ops _ (by simp [NewWorld])
  · have hrw : delVal l.entries k = l.entries :=
      delVal_of_not_mem (findVal_none_keys hnew)
    have hne : l.entries ≠ [] := by
      intro hnil
      rw [hnil] at hcap
      simp at hcap
      omega
    simp only [LRU.add, hrw]
    rw [if_pos (by rw [List.length_cons, hcap]; omega)]
    exact List.dropLast_cons_of_ne_nil hne

/-- C7 witness: a one-slot cache at capacity holding chunk (0,0,0); adding
a chunk at (1,0,0) evicts the resident and the capacity bound holds for an
empty operation sequence at radius 1. -/
theorem c7_capacity_and_lru_eviction_witness :
    (([] : List WorldOp).foldl applyOp (NewWorld 1).chunks).entries.length
        ≤ 1 * 1 * 4 ∧
    ((LRU.mk 1 [(⟨0, 0, 0⟩, NewChunk ⟨0, 0, 0⟩)]).add ⟨1, 0, 0⟩
        (NewChunk ⟨1, 0, 0⟩)).entries
      = [(⟨1, 0, 0⟩, NewChunk ⟨1, 0, 0⟩)] := by
  have h := c7_capacity_and_lru_eviction 1 []
    (LRU.mk 1 [(⟨0, 0, 0⟩, NewChunk ⟨0, 0, 0⟩)]) ⟨1, 0, 0⟩
    (NewChunk ⟨1, 0, 0⟩) (by decide) (by decide) (by decide)
  exact ⟨h.1, by rw [h.2]; decide⟩

/-! ## Durable store: key and value encodings

From store.go.  Bolt keys and values are byte strings; bytes are modelled
as natural numbers (each below 256 for encoded data).  Go's `int32(x)`
conversion truncates to 32 bits: the encoded bytes are the little-endian
digits of `x mod 2^32`. -/

/-- Little-endian four-byte encoding of an int32
(`binary.Write(buf, binary.LittleEndian, int32(x))`). -/
def le32 (x : Int) : List Nat :=
  [(x % 4294967296).toNat % 256,
   (x % 4294967296).toNat / 256 % 256,
   (x % 4294967296).toNat / 65536 % 256,
   (x % 4294967296).toNat / 16777216 % 256]

/-- Two's-complement reading of four little-endian bytes as an int32
(`binary.Read` into an `int32` then Go's widening `int(...)`). -/
def dec32 (b : List Nat) : Int :=
  match b with
  | b0 :: b1 :: b2 :: b3 :: _ =>
    if b0 + 256 * b1 + 65536 * b2 + 16777216 * b3 < 2147483648
    then ((b0 + 256 * b1 + 65536 * b2 + 16777216 * b3 : Nat) : Int)
    else ((b0 + 256 * b1 + 65536 * b2 + 16777216 * b3 : Nat) : Int)
      - 4294967296
  | _ => 0

/-- Key encoding, from store.go `encodeBlockDbKey`: chunk X, chunk Z, then
block X, Y, Z, each as a little-endian int32. -/
def encodeBlockDbKey (cid bid : Vec3) : List Nat :=
  le32 cid.X ++ le32 cid.Z ++ (le32 bid.X ++ le32 bid.Y ++ le32 bid.Z)

/-- Key decoding, from store.go `decodeBlockDbKey`: panics (`none`) unless
the key is 20 bytes and the decoded block coordinate's derived chunk equals
the decoded chunk coordinate. -/
def decodeBlockDbKey (b : List Nat) : Option (Vec3 × Vec3) :=
  if b.length = 20 then
    if (Vec3.mk (dec32 ((b.drop 8).take 4)) (dec32 ((b.drop 12).take 4))
          (dec32 ((b.drop 16).take 4))).Chunkid
        = Vec3.mk (dec32 (b.take 4)) 0 (dec32 ((b.drop 4).take 4))
    then some (Vec3.mk (dec32 (b.take 4)) 0 (dec32 ((b.drop 4).take 4)),
      Vec3.mk (dec32 ((b.drop 8).take 4)) (dec32 ((b.drop 12).take 4))
        (dec32 ((b.drop 16).take 4)))
    else none
  else none

/-- Value encoding, from store.go `encodeBlockDbValue`: the little-endian
bytes of `uint32(w)`, modelled as the number those four bytes denote. -/
def encodeBlockDbValue (w : Int) : Nat := (w % 4294967296).toNat

/-- Value decoding, from store.go `decodeBlockDbValue`:
`int(binary.LittleEndian.Uint32(b))`, the unsigned stored number read back
as a (64-bit) Go int. -/
def decodeBlockDbValue (n : Nat) : Int := (n : Int)

/-- Chunk-bucket key encoding, from store.go `encodeVec3` (all three
coordinates, little-endian int32s); used for version stamps. -/
def encodeVec3 (v : Vec3) : List Nat := le32 v.X ++ le32 v.Y ++ le32 v.Z

/-- Durable store contents, from store.go `Store`: the block-override
bucket and the chunk-version bucket (the camera bucket does not concern the
claims).  Bindings are unordered here; the ordered cursor of the boltdb
dependency is modelled by sorting at scan time (`Store.rangeBlocks`). -/
structure StoreState where
  blocks : List (List Nat × Nat)
  chunkVersions : List (List Nat × String)
deriving DecidableEq, Repr

/-- Block write, from store.go `Store.UpdateBlock`: keyed by the derived
chunk coordinate followed by the block coordinate. -/
def StoreState.updateBlock (s : StoreState) (id : Vec3) (w : Int) : StoreState :=
  ⟨putVal s.blocks (encodeBlockDbKey id.Chunkid id) (encodeBlockDbValue w),
    s.chunkVersions⟩

/-- Version read, from store.go `Store.GetChunkVersion`: empty string when
absent. -/
def StoreState.getChunkVersion (s : StoreState) (id : Vec3) : String :=
  (findVal s.chunkVersions (encodeVec3 id)).getD ""

/-- Version write, from store.go `Store.UpdateChunkVersion`. -/
def StoreState.updateChunkVersion (s : StoreState) (id : Vec3) (v : String) :
    StoreState :=
  ⟨s.blocks, putVal s.chunkVersions (encodeVec3 id) v⟩

/-! ## World block access and update

From world.go.  `loadChunk` is an LRU `Get`, so every read promotes the
touched chunk to most recently used; in Go the loaded `*Chunk` is then
mutated in place, which the model renders by writing the modified chunk
back under its key (the binding is at the front after the `Get`, so
`putVal` reproduces the in-place update exactly). -/

/-- Chunk owning a block, from world.go `World.BlockChunk`. -/
def World.BlockChunk (w : World) (id : Vec3) : Option Chunk × World :=
  w.loadChunk id.Chunkid

/-- Block read, from world.go `World.Block`: -1 when the owning chunk is
not loaded, otherwise the chunk's value (whose wrong-chunk panic is
`none`). -/
def World.Block (w : World) (id : Vec3) : Option (Int × World) :=
  match w.BlockChunk id with
  | (none, w') => some (-1, w')
  | (some c, w') => (c.Block id).map fun v => (v, w')

/-- Write-back of a mutated chunk under its key (models Go's in-place
mutation through the pointer held by the LRU cache). -/
def World.putLoaded (w : World) (cid : Vec3) (c : Chunk) : World :=
  ⟨⟨w.chunks.size, putVal w.chunks.entries cid c⟩⟩

/-- Block update, from world.go `World.UpdateBlock`: load the owning chunk;
when present, `add` the block for a non-zero type and `del` it for type 0
(wrong-chunk panics are `none`); in all cases write through to the durable
store. -/
def World.UpdateBlock (w : World) (s : StoreState) (id : Vec3) (tp : Int) :
    Option (World × StoreState) :=
  match w.BlockChunk id with
  | (none, w') => some (w', s.updateBlock id tp)
  | (some c, w') =>
    (if tp ≠ 0 then c.add id tp else c.del id).map fun c2 =>
      (w'.putLoaded id.Chunkid c2, s.updateBlock id tp)

theorem putVal_cons_self {α β : Type} [DecidableEq α]
    (E : List (α × β)) (k : α) (c c2 : β) :
    putVal ((k, c) :: delVal E k) k c2 = (k, c2) :: delVal E k := by
  simp only [putVal, List.filter_cons]
  rw [if_neg (by simp)]
  exact congrArg _ (filter_ne_idem E k)

theorem delVal_cons_self {α β : Type} [DecidableEq α]
    (E : List (α × β)) (k : α) (c : β) :
    delVal ((k, c) :: delVal E k) k = delVal E k := by
  simp only [delVal, List.filter_cons]
  rw [if_neg (by simp)]
  exact filter_ne_idem E k

theorem block_of_loaded (w : World) (id : Vec3) (c : Chunk)
    (hid : c.id = id.Chunkid)
    (hmem : findVal w.chunks.entries id.Chunkid = some c) :
    w.Block id = some ((findVal c.blocks id).getD 0,
      ⟨⟨w.chunks.size, (id.Chunkid, c) :: delVal w.chunks.entries id.Chunkid⟩⟩) := by
  simp [World.Block, World.BlockChunk, World.loadChunk, LRU.get, hmem,
    Chunk.Block, hid]

theorem updateBlock_of_loaded (w : World) (s : StoreState) (id : Vec3)
    (tp : Int) (c : Chunk) (hid : c.id = id.Chunkid)
    (hmem : findVal w.chunks.entries id.Chunkid = some c) :
    w.UpdateBlock s id tp = some
      (⟨⟨w.chunks.size,
        (id.Chunkid,
          ⟨c.id, if tp = 0 then delVal c.blocks id else putVal c.blocks id tp⟩)
          :: delVal w.chunks.entries id.Chunkid⟩⟩,
        s.updateBlock id tp) := by
  rcases eq_or_ne tp 0 with htp | htp
  · subst htp
    simp [World.UpdateBlock, World.BlockChunk, World.loadChunk, LRU.get, hmem,
      Chunk.del, hid, World.putLoaded, putVal_cons_self]
  · simp [World.UpdateBlock, World.BlockChunk, World.loadChunk, LRU.get, hmem,
      Chunk.add, hid, World.putLoaded, putVal_cons_self, htp]

theorem updateBlock_of_missing (w : World) (s : StoreState) (id : Vec3)
    (tp : Int) (hmiss : findVal w.chunks.entries id.Chunkid = none) :
    w.UpdateBlock s id tp = some (w, s.updateBlock id tp) := by
  simp [World.UpdateBlock, World.BlockChunk, World.loadChunk, LRU.get, hmiss]

theorem updateBlock_read_helper (w : World) (s : StoreState) (id : Vec3)
    (tp : Int) (c : Chunk) (hid : c.id = id.Chunkid)
    (hmem : findVal w.chunks.entries id.Chunkid = some c) :
    ∃ w2 s2, w.UpdateBlock s id tp = some (w2, s2) ∧
      (∃ w3, w2.Block id = some (tp, w3)) ∧
      findVal s2.blocks (encodeBlockDbKey id.Chunkid id)
        = some (encodeBlockDbValue tp) ∧
      ∃ c2, findVal w2.chunks.entries id.Chunkid = some c2 ∧
        (tp ≠ 0 → findVal c2.blocks id = some tp) ∧
        (tp = 0 → findVal c2.blocks id = none) := by
  refine ⟨_, _, updateBlock_of_loaded w s id tp c hid hmem, ?_, ?_, ?_⟩
  · have hval : (findVal
        (if tp = 0 then delVal c.blocks id else putVal c.blocks id tp) id).getD 0
          = tp := by
      rcases eq_or_ne tp 0 with htp | htp
      · subst htp; rw [if_pos rfl, findVal_delVal_self]; rfl
      · rw [if_neg htp, findVal_putVal_self]; rfl
    refine ⟨⟨⟨w.chunks.size, (id.Chunkid,
        (⟨c.id, if tp = 0 then delVal c.blocks id else putVal c.blocks id tp⟩ : Chunk))
        :: delVal w.chunks.entries id.Chunkid⟩⟩, ?_⟩
    rw [block_of_loaded
      ⟨⟨w.chunks.size, (id.Chunkid,
        (⟨c.id, if tp = 0 then delVal c.blocks id else putVal c.blocks id tp⟩ : Chunk))
        :: delVal w.chunks.entries id.Chunkid⟩⟩
      id
      ⟨c.id, if tp = 0 then delVal c.blocks id else putVal c.blocks id tp⟩
      hid (by simp [findVal])]
    simp [hval, delVal_cons_self]
  · exact findVal_putVal_self ..
  · refine ⟨⟨c.id, if tp = 0 then delVal c.blocks id else putVal c.blocks id tp⟩,
      by simp [findVal], fun htp => ?_, fun htp => ?_⟩
    · rw [if_neg htp]; exact findVal_putVal_self ..
    · rw [if_pos htp]; exact findVal_delVal_self ..

/-- C1 (amended): when the owning chunk is present in the in-memory chunk
store, `World.UpdateBlock(b, T)` followed by `World.Block(b)` returns T:
a non-zero T is stored in the owning chunk and T = 0 deletes the block,
and in both cases the edit is written through to the durable cache.  (When
the owning chunk is not loaded, only the durable write happens and the
in-memory read returns the unknown sentinel -1 instead; see the
counterexample.) -/
theorem c1_update_then_read (w : World) (s : StoreState) (id : Vec3)
    (tp : Int) (c : Chunk) (hid : c.id = id.Chunkid)
    (hmem : findVal w.chunks.entries id.Chunkid = some c) :
    ∃ w2 s2, w.UpdateBlock s id tp = some (w2, s2) ∧
      (∃ w3, w2.Block id = some (tp, w3)) ∧
      findVal s2.blocks (encodeBlockDbKey id.Chunkid id)
        = some (encodeBlockDbValue tp) ∧
      ∃ c2, findVal w2.chunks.entries id.Chunkid = some c2 ∧
        (tp ≠ 0 → findVal c2.blocks id = some tp) ∧
        (tp = 0 → findVal c2.blocks id = none) :=
  updateBlock_read_helper w s id tp c hid hmem

/-- C1 counterexample: on a fresh world whose chunk store is empty, the
claim as stated fails: `UpdateBlock((0,0,0), 1)` writes only the durable
cache and the immediate `Block((0,0,0))` read returns the unknown sentinel
-1, not 1. -/
theorem c1_counterexample :
    (((NewWorld 1).UpdateBlock ⟨[], []⟩ ⟨0, 0, 0⟩ 1).bind
      fun p => (p.1.Block ⟨0, 0, 0⟩).map Prod.fst) = some (-1) ∧
    (-1 : Int) ≠ 1 := by
  constructor
  · decide
  · decide

/-- C1 witness: a world holding the chunk at (0,0,0); updating block
(1,2,3) to 7 makes the immediate read return 7. -/
theorem c1_update_then_read_witness :
    ∃ w2 s2, (World.mk ⟨4, [(⟨0, 0, 0⟩, NewChunk ⟨0, 0, 0⟩)]⟩).UpdateBlock
        ⟨[], []⟩ ⟨1, 2, 3⟩ 7 = some (w2, s2) ∧
      (∃ w3, w2.Block ⟨1, 2, 3⟩ = some (7, w3)) ∧
      findVal s2.blocks (encodeBlockDbKey (Vec3.Chunkid ⟨1, 2, 3⟩) ⟨1, 2, 3⟩)
        = some (encodeBlockDbValue 7) ∧
      ∃ c2, findVal w2.chunks.entries (Vec3.Chunkid ⟨1, 2, 3⟩) = some c2 ∧
        ((7 : Int) ≠ 0 → findVal c2.blocks ⟨1, 2, 3⟩ = some 7) ∧
        ((7 : Int) = 0 → findVal c2.blocks ⟨1, 2, 3⟩ = none) :=
  c1_update_then_read (World.mk ⟨4, [(⟨0, 0, 0⟩, NewChunk ⟨0, 0, 0⟩)]⟩)
    ⟨[], []⟩ ⟨1, 2, 3⟩ 7 (NewChunk ⟨0, 0, 0⟩) (by decide) (by decide)

/-! ## Server-pushed block update notification (rpc.go) -/

/-- Mesh dirty-flagging, from part_002 `BlockRender.DirtyChunk`: sets the
Dirty flag of a cached mesh, if present.  The mesh cache is modelled by its
id-to-Dirty-flag bindings; the GPU contents of a `Mesh` are irrelevant to
the world state. -/
def dirtyChunk (mc : List (Vec3 × Bool)) (id : Vec3) : List (Vec3 × Bool) :=
  match findVal mc id with
  | none => mc
  | some _ => putVal mc id true

/-- Server-pushed block update handler, from rpc.go
`BlockService.UpdateBlock`: applies the pushed value to the world (and
through it, to the durable store) and marks the owning chunk's mesh
dirty. -/
def serviceUpdateBlock (st : World × StoreState × List (Vec3 × Bool))
    (x y z w : Int) : Option (World × StoreState × List (Vec3 × Bool)) :=
  (st.1.UpdateBlock st.2.1 ⟨x, y, z⟩ w).map fun p =>
    (p.1, p.2, dirtyChunk st.2.2 (Vec3.Chunkid ⟨x, y, z⟩))

theorem dirtyChunk_idem (mc : List (Vec3 × Bool)) (id : Vec3) :
    dirtyChunk (dirtyChunk mc id) id = dirtyChunk mc id := by
  rcases hf : findVal mc id with _ | b
  · simp [dirtyChunk, hf]
  · simp [dirtyChunk, hf, findVal_putVal_self, putVal_putVal_same]

theorem storeUpdateBlock_idem (s : StoreState) (id : Vec3) (tp : Int) :
    (s.updateBlock id tp).updateBlock id tp = s.updateBlock id tp := by
  simp [StoreState.updateBlock, putVal_putVal_same]

theorem chunkAddDel_some_id {c : Chunk} {id : Vec3} {tp : Int} {c2 : Chunk}
    (h : (if tp ≠ 0 then c.add id tp else c.del id) = some c2) :
    c.id = id.Chunkid := by
  by_cases hg : id.Chunkid = c.id
  · exact hg.symm
  · exfalso
    rcases eq_or_ne tp 0 with htp | htp
    · rw [if_neg (by simp [htp]), Chunk.del, if_pos hg] at h; cases h
    · rw [if_pos htp, Chunk.add, if_pos hg] at h; cases h

theorem updateBlock_idem (w : World) (s : StoreState) (id : Vec3) (tp : Int)
    (w2 : World) (s2 : StoreState)
    (h : w.UpdateBlock s id tp = some (w2, s2)) :
    w2.UpdateBlock s2 id tp = some (w2, s2) := by
  rcases hf : findVal w.chunks.entries id.Chunkid with _ | c
  · rw [updateBlock_of_missing w s id tp hf] at h
    simp only [Option.some.injEq, Prod.mk.injEq] at h
    obtain ⟨hw, hs⟩ := h
    subst hw
    subst hs
    rw [updateBlock_of_missing _ _ id tp hf, storeUpdateBlock_idem]
  · have hid : c.id = id.Chunkid := by
      simp only [World.UpdateBlock, World.BlockChunk, World.loadChunk,
        LRU.get, hf] at h
      rcases hcc : (if tp ≠ 0 then c.add id tp else c.del id) with _ | c2
      · rw [hcc] at h; cases h
      · exact chunkAddDel_some_id hcc
    rw [updateBlock_of_loaded w s id tp c hid hf] at h
    simp only [Option.some.injEq, Prod.mk.injEq] at h
    obtain ⟨hw, hs⟩ := h
    subst hw
    subst hs
    rw [updateBlock_of_loaded _ _ id tp
      ⟨c.id, if tp = 0 then delVal c.blocks id else putVal c.blocks id tp⟩
      hid (by simp [findVal])]
    rcases eq_or_ne tp 0 with htp | htp <;>
      simp [htp, delVal_cons_self, delVal_delVal_same, putVal_putVal_same,
        storeUpdateBlock_idem]

/-- C3 (amended): the server-pushed UpdateBlock notification handler is
idempotent: delivering the same notification twice leaves exactly the state
one delivery produces, because the handler applies the value, not a delta;
moreover, whenever the owning chunk is present in the chunk store, the
block read after the delivery (hence also after both) returns w.  (When the
owning chunk is not loaded, the in-memory read returns the unknown sentinel
-1 instead; see the counterexample.) -/
theorem c3_notification_idempotent
    (st : World × StoreState × List (Vec3 × Bool)) (x y z w : Int) :
    ((serviceUpdateBlock st x y z w).bind
        fun st2 => serviceUpdateBlock st2 x y z w)
      = serviceUpdateBlock st x y z w ∧
    ∀ c : Chunk, c.id = (Vec3.mk x y z).Chunkid →
      findVal st.1.chunks.entries (Vec3.mk x y z).Chunkid = some c →
      ∃ st2, serviceUpdateBlock st x y z w = some st2 ∧
        ∃ w3, st2.1.Block ⟨x, y, z⟩ = some (w, w3) := by
  constructor
  · rcases hu : st.1.UpdateBlock st.2.1 ⟨x, y, z⟩ w with _ | p
    · simp [serviceUpdateBlock, hu]
    · have h2 := updateBlock_idem st.1 st.2.1 ⟨x, y, z⟩ w p.1 p.2 (by rw [hu])
      simp [serviceUpdateBlock, hu, h2, dirtyChunk_idem]
  · intro c hid hmem
    obtain ⟨w2, s2, hupd, ⟨w3, hblock⟩, _, _⟩ :=
      updateBlock_read_helper st.1 st.2.1 ⟨x, y, z⟩ w c hid hmem
    exact ⟨(w2, s2, dirtyChunk st.2.2 (Vec3.Chunkid ⟨x, y, z⟩)),
      by simp [serviceUpdateBlock, hupd], w3, hblock⟩

/-- C3 counterexample: with the owning chunk not loaded (fresh world),
delivering the notification UpdateBlock(0,0,0,1) twice leaves
`World.Block((0,0,0))` equal to the unknown sentinel -1, not to w = 1, so
the claim's read-back clause fails as stated. -/
theorem c3_counterexample :
    ((serviceUpdateBlock (NewWorld 1, ⟨[], []⟩, []) 0 0 0 1).bind
        fun st2 => (serviceUpdateBlock st2 0 0 0 1).bind
          fun st3 => (st3.1.Block ⟨0, 0, 0⟩).map Prod.fst)
      = some (-1) ∧ (-1 : Int) ≠ 1 := by
  constructor
  · decide
  · decide

/-- C3 witness: delivering UpdateBlock(1,2,3,7) on a world holding chunk
(0,0,0) is idempotent and the read returns 7. -/
theorem c3_notification_idempotent_witness :
    ((serviceUpdateBlock
        (World.mk ⟨4, [(⟨0, 0, 0⟩, NewChunk ⟨0, 0, 0⟩)]⟩, ⟨[], []⟩, [])
        1 2 3 7).bind
      fun st2 => serviceUpdateBlock st2 1 2 3 7)
      = serviceUpdateBlock
        (World.mk ⟨4, [(⟨0, 0, 0⟩, NewChunk ⟨0, 0, 0⟩)]⟩, ⟨[], []⟩, [])
        1 2 3 7 ∧
    ∃ st2, serviceUpdateBlock
        (World.mk ⟨4, [(⟨0, 0, 0⟩, NewChunk ⟨0, 0, 0⟩)]⟩, ⟨[], []⟩, [])
        1 2 3 7 = some st2 ∧
      ∃ w3, st2.1.Block ⟨1, 2, 3⟩ = some (7, w3) := by
  have h := c3_notification_idempotent
    (World.mk ⟨4, [(⟨0, 0, 0⟩, NewChunk ⟨0, 0, 0⟩)]⟩, ⟨[], []⟩, []) 1 2 3 7
  exact ⟨h.1, h.2 (NewChunk ⟨0, 0, 0⟩) (by decide) (by decide)⟩

/-! ## Procedural generator (world.go `makeChunkMap`)

The spec excludes the procedural-noise primitive, consuming it as an
external pure function; accordingly the noise-derived quantities of
`makeChunkMap` are abstracted into a parameter record and the generator is
proved correct for every instantiation: `height x z` is the column height
`int(f * float32(mh))` before the sand clamp, `flower1`/`flower2`/`treeAt`/
`cloudAt` are the noise-threshold tests, and `flowerType x z` is
`18 + int(noise2(...)*7)`.  Everything else mirrors the source loops. -/

/-- Noise-derived inputs of `makeChunkMap`, one field per noise expression
in the source. -/
structure GenParams where
  height : Int → Int → Int
  flower1 : Int → Int → Bool
  flower2 : Int → Int → Bool
  flowerType : Int → Int → Int
  treeAt : Int → Int → Bool
  cloudAt : Int → Int → Int → Bool

/-- Integer range [a, b) as a list, modelling `for y := a; y < b; y++`. -/
def intRange (a b : Int) : List Int :=
  (List.range (b - a).toNat).map (fun (i : Nat) => a + (i : Int))

/-- Terrain segment of a `makeChunkMap` column: grass or sand up to the
height (`for y := 0; y < h; y++ { m[Vec3{x, y, z}] = w }`). -/
def terrainWrites (x z h w : Int) : List (Vec3 × Int) :=
  (intRange 0 h).map (fun y => (⟨x, y, z⟩, w))

/-- Flower segment of a `makeChunkMap` column: on a grass surface, a grass
tuft (17) and/or a coloured flower. -/
def flowerWrites (P : GenParams) (x z h w : Int) : List (Vec3 × Int) :=
  if w = 1 then
    (if P.flower1 x z then [(⟨x, h, z⟩, 17)] else []) ++
    (if P.flower2 x z then [(⟨x, h, z⟩, P.flowerType x z)] else [])
  else []

/-- Tree segment of a `makeChunkMap` column: the ellipsoidal leaf blob (15)
and the trunk (5). -/
def treeWrites (x z h : Int) : List (Vec3 × Int) :=
  ((intRange (h + 3) (h + 8)).flatMap fun y =>
    (intRange (-3) 4).flatMap fun ox =>
      (intRange (-3) 4).filterMap fun oz =>
        if ox * ox + oz * oz + (y - h - 4) * (y - h - 4) < 11
        then some (⟨x + ox, y, z + oz⟩, 15) else none) ++
  (intRange h (h + 7)).map (fun y => (⟨x, y, z⟩, 5))

/-- Cloud segment of a `makeChunkMap` column: cloud blocks (16) in the
fixed 64..71 altitude band. -/
def cloudWrites (P : GenParams) (x z : Int) : List (Vec3 × Int) :=
  (intRange 64 72).filterMap (fun y =>
    if P.cloudAt x y z then some (⟨x, y, z⟩, 16) else none)

/-- Map writes of one (dx, dz) column of `makeChunkMap`, in program order:
terrain up to the height, flowers on a grass surface, tree (guarded by the
4-block margin and the noise threshold), clouds.  Material ids as in the
source: grassBlock 1, sandBlock 2, grass 17, leaves 15, wood 5, cloud
16. -/
def columnWrites (P : GenParams) (cid : Vec3) (dx dz : Int) :
    List (Vec3 × Int) :=
  let x := cid.X * ChunkWidth + dx
  let z := cid.Z * ChunkWidth + dz
  let h0 := P.height x z
  let h := if h0 ≤ 12 then 12 else h0
  let w : Int := if h0 ≤ 12 then 2 else 1
  terrainWrites x z h w ++
    (flowerWrites P x z h w ++
      ((if w = 1 ∧ ¬ (dx - 4 < 0 ∨ dz - 4 < 0 ∨ dx + 4 > ChunkWidth
            ∨ dz + 4 > ChunkWidth) ∧ P.treeAt x z = true
        then treeWrites x z h else []) ++
      cloudWrites P x z))

/-- All map writes of `makeChunkMap`, columns in loop order. -/
def makeChunkMapWrites (P : GenParams) (cid : Vec3) : List (Vec3 × Int) :=
  (intRange 0 ChunkWidth).flatMap fun dx =>
    (intRange 0 ChunkWidth).flatMap fun dz =>
      columnWrites P cid dx dz

/-- Generated block map of `makeChunkMap` (Go map semantics: the last write
to a key wins). -/
def makeChunkMap (P : GenParams) (cid : Vec3) : List (Vec3 × Int) :=
  (makeChunkMapWrites P cid).foldl (fun m p => putVal m p.1 p.2) []

/-- Insertion of a list of generated blocks via `Chunk.add`, modelling the
loop `for block, tp := range blocks { chunk.add(block, tp) }` in
world.go `World.Chunk`; `none` when some `add` panics. -/
def applyAdds (c : Chunk) : List (Vec3 × Int) → Option Chunk
  | [] => some c
  | (b, tp) :: rest => (c.add b tp).bind fun c2 => applyAdds c2 rest

theorem mem_intRange {a b y : Int} (h : y ∈ intRange a b) :
    a ≤ y ∧ y < b := by
  simp only [intRange, List.mem_map, List.mem_range] at h
  obtain ⟨i, hi, hy⟩ := h
  omega

theorem mem_intRange_of {a b y : Int} (ha : a ≤ y) (hb : y < b) :
    y ∈ intRange a b := by
  simp only [intRange, List.mem_map, List.mem_range]
  exact ⟨(y - a).toNat, by omega, by omega⟩

theorem chunkid_of_offset (cx cz dx dz y : Int)
    (hx0 : 0 ≤ dx) (hx1 : dx < 32) (hz0 : 0 ≤ dz) (hz1 : dz < 32) :
    (Vec3.mk (cx * ChunkWidth + dx) y (cz * ChunkWidth + dz)).Chunkid
      = ⟨cx, 0, cz⟩ := by
  have hx : Int.fdiv (cx * 32 + dx) 32 = cx := by
    rw [Int.fdiv_eq_ediv _ (by norm_num)]
    omega
  have hz : Int.fdiv (cz * 32 + dz) 32 = cz := by
    rw [Int.fdiv_eq_ediv _ (by norm_num)]
    omega
  simp only [Vec3.Chunkid, ChunkWidth] at hx hz ⊢
  rw [hx, hz]

theorem terrainWrites_key (x z h w : Int) {p : Vec3 × Int}
    (hp : p ∈ terrainWrites x z h w) : ∃ y, p.1 = ⟨x, y, z⟩ := by
  simp only [terrainWrites, List.mem_map] at hp
  obtain ⟨y, _, rfl⟩ := hp
  exact ⟨y, rfl⟩

theorem flowerWrites_key (P : GenParams) (x z h w : Int) {p : Vec3 × Int}
    (hp : p ∈ flowerWrites P x z h w) : p.1 = ⟨x, h, z⟩ := by
  simp only [flowerWrites] at hp
  split_ifs at hp <;>
    simp only [List.mem_append, List.mem_singleton, List.not_mem_nil,
      or_false, false_or] at hp
  all_goals rcases hp with rfl | rfl <;> rfl

theorem treeWrites_key (x z h : Int) {p : Vec3 × Int}
    (hp : p ∈ treeWrites x z h) :
    ∃ ox oz y, -3 ≤ ox ∧ ox ≤ 3 ∧ -3 ≤ oz ∧ oz ≤ 3 ∧
      p.1 = ⟨x + ox, y, z + oz⟩ := by
  simp only [treeWrites, List.mem_append, List.mem_flatMap,
    List.mem_filterMap, List.mem_map] at hp
  rcases hp with ⟨y, _, ox, hox, oz, hoz, hif⟩ | ⟨y, _, rfl⟩
  · have h1 := mem_intRange hox
    have h2 := mem_intRange hoz
    split_ifs at hif
    refine ⟨ox, oz, y, by omega, by omega, by omega, by omega, ?_⟩
    simp only [Option.some.injEq] at hif
    rw [← hif]
  · exact ⟨0, 0, y, by norm_num, by norm_num, by norm_num, by norm_num,
      by simp⟩

theorem cloudWrites_key (P : GenParams) (x z : Int) {p : Vec3 × Int}
    (hp : p ∈ cloudWrites P x z) : ∃ y, p.1 = ⟨x, y, z⟩ := by
  simp only [cloudWrites, List.mem_filterMap] at hp
  obtain ⟨y, _, hif⟩ := hp
  split_ifs at hif
  simp only [Option.some.injEq] at hif
  exact ⟨y, by rw [← hif]⟩

theorem columnWrites_in_chunk (P : GenParams) (cx cz dx dz : Int)
    (hx0 : 0 ≤ dx) (hx1 : dx < ChunkWidth) (hz0 : 0 ≤ dz)
    (hz1 : dz < ChunkWidth) :
    ∀ p ∈ columnWrites P ⟨cx, 0, cz⟩ dx dz,
      (p : Vec3 × Int).1.Chunkid = ⟨cx, 0, cz⟩ := by
  intro p hp
  rw [show ChunkWidth = 32 from rfl] at hx1 hz1
  have key : ∀ y : Int,
      (Vec3.mk (cx * ChunkWidth + dx) y (cz * ChunkWidth + dz)).Chunkid
        = ⟨cx, 0, cz⟩ :=
    fun y => chunkid_of_offset cx cz dx dz y hx0 hx1 hz0 hz1
  simp only [columnWrites, List.mem_append] at hp
  rcases hp with hterr | hflw | htree | hcld
  · obtain ⟨y, hk⟩ := terrainWrites_key _ _ _ _ hterr
    rw [hk]
    exact key y
  · rw [flowerWrites_key _ _ _ _ _ hflw]
    exact key _
  · by_cases hw : P.height (cx * ChunkWidth + dx) (cz * ChunkWidth + dz) ≤ 12
    · rw [if_pos hw, if_pos hw] at htree
      rw [if_neg (show ¬ ((2 : Int) = 1
          ∧ ¬ (dx - 4 < 0 ∨ dz - 4 < 0 ∨ dx + 4 > ChunkWidth
            ∨ dz + 4 > ChunkWidth)
          ∧ P.treeAt (cx * ChunkWidth + dx) (cz * ChunkWidth + dz) = true)
        from fun hc => absurd hc.1 (by norm_num))] at htree
      cases htree
    · rw [if_neg hw, if_neg hw] at htree
      by_cases hC : (1 : Int) = 1
          ∧ ¬ (dx - 4 < 0 ∨ dz - 4 < 0 ∨ dx + 4 > ChunkWidth
            ∨ dz + 4 > ChunkWidth)
          ∧ P.treeAt (cx * ChunkWidth + dx) (cz * ChunkWidth + dz) = true
      · rw [if_pos hC] at htree
        have hg : ¬ (dx - 4 < 0 ∨ dz - 4 < 0 ∨ dx + 4 > ChunkWidth
            ∨ dz + 4 > ChunkWidth) := hC.2.1
        simp only [ChunkWidth, not_or, not_lt] at hg
        obtain ⟨ox, oz, y, ho1, ho2, ho3, ho4, hk⟩ := treeWrites_key _ _ _ htree
        rw [hk]
        have hxr : cx * ChunkWidth + dx + ox = cx * ChunkWidth + (dx + ox) := by
          ring
        have hzr : cz * ChunkWidth + dz + oz = cz * ChunkWidth + (dz + oz) := by
          ring
        rw [hxr, hzr]
        exact chunkid_of_offset cx cz (dx + ox) (dz + oz) y
          (by omega) (by omega) (by omega) (by omega)
      · rw [if_neg hC] at htree
        cases htree
  · obtain ⟨y, hk⟩ := cloudWrites_key _ _ _ hcld
    rw [hk]
    exact key y

theorem foldPut_subset {α β : Type} [DecidableEq α] (ws : List (α × β))
    (m0 : List (α × β)) :
    ∀ p ∈ ws.foldl (fun m q => putVal m q.1 q.2) m0, p ∈ ws ∨ p ∈ m0 := by
  induction ws generalizing m0 with
  | nil => exact fun p hp => Or.inr hp
  | cons q rest ih =>
    intro p hp
    simp only [List.foldl_cons] at hp
    rcases ih (putVal m0 q.1 q.2) p hp with h | h
    · exact Or.inl (List.mem_cons_of_mem _ h)
    · rcases List.mem_cons.1 h with h2 | h2
      · left
        rw [h2]
        exact List.mem_cons_self _ _
      · exact Or.inr (List.mem_of_mem_filter h2)

theorem applyAdds_ok (c : Chunk) (l : List (Vec3 × Int))
    (h : ∀ p ∈ l, (p : Vec3 × Int).1.Chunkid = c.id) :
    ∃ c2, applyAdds c l = some c2 ∧ c2.id = c.id := by
  induction l generalizing c with
  | nil => exact ⟨c, rfl, rfl⟩
  | cons p rest ih =>
    rcases p with ⟨b, tp⟩
    have hb : b.Chunkid = c.id := h (b, tp) (List.mem_cons_self _ _)
    have hadd : c.add b tp = some ⟨c.id, putVal c.blocks b tp⟩ := by
      simp [Chunk.add, hb]
    obtain ⟨c2, h2, hid2⟩ := ih ⟨c.id, putVal c.blocks b tp⟩
      (fun q hq => h q (List.mem_cons_of_mem _ hq))
    exact ⟨c2, by simp [applyAdds, hadd, h2], hid2⟩

/-- C5: every block coordinate written by the procedural generator
`makeChunkMap` for chunk (cx, 0, cz) — terrain columns, flowers, tree
trunks and leaf blobs (kept inside the footprint by the 4-block margin),
and clouds — derives exactly that chunk coordinate, for every
instantiation of the noise-derived parameters; consequently inserting the
generated map into the fresh chunk via `Chunk.add` never takes the
wrong-chunk panic branch. -/
theorem c5_generator_in_chunk (P : GenParams) (cx cz : Int) :
    (∀ p ∈ makeChunkMapWrites P ⟨cx, 0, cz⟩,
      (p : Vec3 × Int).1.Chunkid = ⟨cx, 0, cz⟩) ∧
    ∃ c2, applyAdds (NewChunk ⟨cx, 0, cz⟩) (makeChunkMap P ⟨cx, 0, cz⟩)
        = some c2 ∧ c2.id = ⟨cx, 0, cz⟩ := by
  have hall : ∀ p ∈ makeChunkMapWrites P ⟨cx, 0, cz⟩,
      (p : Vec3 × Int).1.Chunkid = ⟨cx, 0, cz⟩ := by
    intro p hp
    simp only [makeChunkMapWrites, List.mem_flatMap] at hp
    obtain ⟨dx, hdx, dz, hdz, hcol⟩ := hp
    have h1 := mem_intRange hdx
    have h2 := mem_intRange hdz
    exact columnWrites_in_chunk P cx cz dx dz h1.1 h1.2 h2.1 h2.2 p hcol
  refine ⟨hall, ?_⟩
  exact applyAdds_ok (NewChunk ⟨cx, 0, cz⟩) _ (fun q hq => hall q
    ((foldPut_subset _ [] q hq).resolve_right (by simp)))

/-- C5 witness: a concrete generated write of the all-sand, all-cloud
parameter instantiation lies in chunk (0,0,0). -/
theorem c5_generator_in_chunk_witness :
    ((Vec3.mk 0 0 0, (2 : Int)) ∈ makeChunkMapWrites
        ⟨fun _ _ => 0, fun _ _ => true, fun _ _ => true, fun _ _ => 18,
          fun _ _ => true, fun _ _ _ => true⟩ ⟨0, 0, 0⟩) ∧
    (Vec3.mk 0 0 0).Chunkid = ⟨0, 0, 0⟩ := by
  constructor
  · decide
  · exact (c5_generator_in_chunk
      ⟨fun _ _ => 0, fun _ _ => true, fun _ _ => true, fun _ _ => 18,
        fun _ _ => true, fun _ _ _ => true⟩ 0 0).1 (⟨0, 0, 0⟩, 2) (by decide)

/-! ## Frustum visibility (part_002 `isChunkVisiable`)

The float32 plane coefficients and corner coordinates of the source are
modelled as exact rationals (every float value is a rational); the
classification logic is embedded verbatim: for each plane the eight
bounding-volume corners are counted as in (dot ≥ 0) or out (dot < 0), and
the chunk is invisible as soon as some plane has in = 0.  The source's
early break once in ≠ 0 ∧ out ≠ 0 cannot change the final `in == 0` test,
since the counters only grow. -/

/-- Frustum plane coefficients (a, b, c, d), one row combination of the
projection-view matrix (`frustumPlanes`). -/
structure Plane where
  a : ℚ
  b : ℚ
  c : ℚ
  d : ℚ
deriving DecidableEq, Repr

/-- Homogeneous dot product `plane.Dot(point.Vec4(1))`. -/
def planeDot (pl : Plane) (pt : ℚ × ℚ × ℚ) : ℚ :=
  pl.a * pt.1 + pl.b * pt.2.1 + pl.c * pt.2.2 + pl.d

/-- Bounding-volume corners of a chunk, from `isChunkVisiable`: the 32×32
footprint at `id * ChunkWidth`, extruded from y = 0 to y = 256. -/
def chunkPoints (id : Vec3) : List (ℚ × ℚ × ℚ) :=
  [((id.X : ℚ) * 32, 0, (id.Z : ℚ) * 32),
   ((id.X : ℚ) * 32 + 32, 0, (id.Z : ℚ) * 32),
   ((id.X : ℚ) * 32 + 32, 0, (id.Z : ℚ) * 32 + 32),
   ((id.X : ℚ) * 32, 0, (id.Z : ℚ) * 32 + 32),
   ((id.X : ℚ) * 32, 256, (id.Z : ℚ) * 32),
   ((id.X : ℚ) * 32 + 32, 256, (id.Z : ℚ) * 32),
   ((id.X : ℚ) * 32 + 32, 256, (id.Z : ℚ) * 32 + 32),
   ((id.X : ℚ) * 32, 256, (id.Z : ℚ) * 32 + 32)]

/-- In/out corner counting of one plane, the inner loop of
`isChunkVisiable`. -/
def planeCount (pl : Plane) (pts : List (ℚ × ℚ × ℚ)) : Nat × Nat :=
  pts.foldl (fun io pt =>
    if planeDot pl pt < 0 then (io.1, io.2 + 1)
    else (io.1 + 1, io.2)) (0, 0)

/-- Chunk visibility, from part_002 `isChunkVisiable`: false as soon as
some plane counts no corner in. -/
def isChunkVisiable (planes : List Plane) (id : Vec3) : Bool :=
  planes.all fun pl => !((planeCount pl (chunkPoints id)).1 == 0)

/-- An axis-aligned box frustum enclosing x, z in (-1, 100) and y in
(-1, 300): the canonical frustum of the visibility scenario. -/
def canonicalFrustum : List Plane :=
  [⟨1, 0, 0, 1⟩, ⟨-1, 0, 0, 100⟩, ⟨0, 1, 0, 1⟩, ⟨0, -1, 0, 300⟩,
   ⟨0, 0, 1, 1⟩, ⟨0, 0, -1, 100⟩]

theorem planeCount_fold (pl : Plane) (pts : List (ℚ × ℚ × ℚ)) :
    ∀ io : Nat × Nat,
      (pts.foldl (fun io pt =>
        if planeDot pl pt < 0 then (io.1, io.2 + 1)
        else (io.1 + 1, io.2)) io).1
      = io.1 + pts.countP (fun pt => !decide (planeDot pl pt < 0)) := by
  induction pts with
  | nil => intro io; simp
  | cons pt rest ih =>
    intro io
    simp only [List.foldl_cons, List.countP_cons]
    by_cases hd : planeDot pl pt < 0
    · rw [if_pos hd, ih]
      simp [hd]
    · rw [if_neg hd, ih]
      simp only [decide_eq_true_eq]
      rw [if_pos (by simpa using hd)]
      omega

theorem planeCount_fst (pl : Plane) (pts : List (ℚ × ℚ × ℚ)) :
    (planeCount pl pts).1
      = pts.countP (fun pt => !decide (planeDot pl pt < 0)) := by
  simpa [planeCount] using planeCount_fold pl pts (0, 0)

/-- C9: the visibility test classifies a chunk visible iff every frustum
plane has at least one of the chunk's eight bounding-box corners on its
non-negative side; in particular, under the canonical box frustum, chunk
(0,0,0) — whose corners are all strictly inside — is visible, and the
far-translated chunk (1000,0,0) is not. -/
theorem c9_frustum_visibility (planes : List Plane) (id : Vec3) :
    (isChunkVisiable planes id = true ↔
      ∀ pl ∈ planes, ∃ pt ∈ chunkPoints id, 0 ≤ planeDot pl pt) ∧
    (∀ pl ∈ canonicalFrustum, ∀ pt ∈ chunkPoints ⟨0, 0, 0⟩,
      0 < planeDot pl pt) ∧
    isChunkVisiable canonicalFrustum ⟨0, 0, 0⟩ = true ∧
    isChunkVisiable canonicalFrustum ⟨1000, 0, 0⟩ = false := by
  refine ⟨?_, ?_, ?_, ?_⟩
  · have key : ∀ pl : Plane,
        (!((planeCount pl (chunkPoints id)).1 == 0)) = true
          ↔ ∃ pt ∈ chunkPoints id, 0 ≤ planeDot pl pt := by
      intro pl
      rw [planeCount_fst]
      constructor
      · intro h
        have h0 : 0 < (chunkPoints id).countP
            (fun pt => !decide (planeDot pl pt < 0)) := by
          rcases Nat.eq_zero_or_pos ((chunkPoints id).countP
            (fun pt => !decide (planeDot pl pt < 0))) with h1 | h1
          · rw [h1] at h
            simp at h
          · exact h1
        obtain ⟨pt, hm, hp⟩ := List.countP_pos_iff.1 h0
        exact ⟨pt, hm, by simpa using hp⟩
      · rintro ⟨pt, hm, hp⟩
        have h0 : 0 < (chunkPoints id).countP
            (fun pt => !decide (planeDot pl pt < 0)) :=
          List.countP_pos_iff.2 ⟨pt, hm, by simpa using not_lt.2 hp⟩
        simp only [Bool.not_eq_eq_eq_not, Bool.not_true, beq_eq_false_iff_ne]
        omega
    rw [isChunkVisiable, List.all_eq_true]
    exact ⟨fun h pl hpl => (key pl).1 (h pl hpl),
      fun h pl hpl => (key pl).2 (h pl hpl)⟩
  · intro pl hpl pt hpt
    fin_cases hpl <;> fin_cases hpt <;> norm_num [planeDot, chunkPoints]
  · norm_num [isChunkVisiable, canonicalFrustum, chunkPoints, planeCount,
      planeDot, List.all, List.foldl]
  · norm_num [isChunkVisiable, canonicalFrustum, chunkPoints, planeCount,
      planeDot, List.all, List.foldl]

/-! ## Mesh-cache update pass (part_002 `BlockRender.updateMeshCache`) -/

/-- Needed set of one update pass, from the loops
`for dx := -n; dx < n; dx++ { for dz := -n; dz < n; dz++ { ... } }` with
the circular filter `if dx*dx+dz*dz > n*n { continue }`: note both loop
bounds are half-open, so dx = n and dz = n are never considered. -/
def neededChunks (n x z : Int) : List Vec3 :=
  (intRange (-n) n).flatMap fun dx =>
    (intRange (-n) n).filterMap fun dz =>
      if dx * dx + dz * dz > n * n then none else some ⟨x + dx, 0, z + dz⟩

/-- Comparator of `BlockRender.sortChunks`: frustum-visible chunks first,
then ascending squared planar distance to the viewer's chunk. -/
def chunkLess (planes : List Plane) (x z : Int) (a b : Vec3) : Bool :=
  if isChunkVisiable planes a && !(isChunkVisiable planes b) then true
  else if isChunkVisiable planes b && !(isChunkVisiable planes a) then false
  else decide ((a.X - x) * (a.X - x) + (a.Z - z) * (a.Z - z)
    < (b.X - x) * (b.X - x) + (b.Z - z) * (b.Z - z))

/-- Rebuild ordering, from `BlockRender.sortChunks` (one admissible result
of Go's unstable `sort.Slice` under the same comparator). -/
def sortChunks (planes : List Plane) (x z : Int) (l : List Vec3) :
    List Vec3 :=
  l.insertionSort (fun a b => chunkLess planes x z a b = true)

/-- One mesh-cache update pass, from part_002
`BlockRender.updateMeshCache`: compute the needed set from the viewer's
chunk; mark cached-but-unneeded coordinates and dirty needed ones for
removal; mark missing or dirty needed ones for (re)building; sort the
build list by visibility and distance and truncate it to the batch limit
4; delete the removals from the cache; store a fresh (non-dirty) mesh for
each built chunk.  The mesh cache is modelled by its id-to-Dirty-flag
bindings. -/
def updateMeshCache (planes : List Plane) (camChunk : Vec3) (n : Int)
    (mc : List (Vec3 × Bool)) : List (Vec3 × Bool) :=
  let needed := neededChunks n camChunk.X camChunk.Z
  let removed1 := (mc.map Prod.fst).filter (fun id => decide (id ∉ needed))
  let added1 := needed.filter (fun id =>
    match findVal mc id with
    | none => true
    | some d => d)
  let removed := removed1 ++ needed.filter (fun id =>
    match findVal mc id with
    | none => false
    | some d => d)
  let sorted := sortChunks planes camChunk.X camChunk.Z added1
  let added := if sorted.length > 4 then sorted.take 4 else sorted
  let afterRemove := mc.filter (fun p => decide (p.1 ∉ removed))
  added.foldl (fun acc id => putVal acc id false) afterRemove

theorem mem_neededChunks {n x z : Int} {id : Vec3} :
    id ∈ neededChunks n x z ↔
      ∃ dx dz, -n ≤ dx ∧ dx < n ∧ -n ≤ dz ∧ dz < n ∧
        dx * dx + dz * dz ≤ n * n ∧ id = ⟨x + dx, 0, z + dz⟩ := by
  simp only [neededChunks, List.mem_flatMap, List.mem_filterMap]
  constructor
  · rintro ⟨dx, hdx, dz, hdz, hif⟩
    have h1 := mem_intRange hdx
    have h2 := mem_intRange hdz
    split_ifs at hif with hgt
    simp only [Option.some.injEq] at hif
    exact ⟨dx, dz, h1.1, h1.2, h2.1, h2.2, by omega, hif.symm⟩
  · rintro ⟨dx, dz, h1, h2, h3, h4, h5, rfl⟩
    refine ⟨dx, mem_intRange_of h1 h2, dz, mem_intRange_of h3 h4, ?_⟩
    rw [if_neg (by omega)]

theorem foldPutFalse_subset (ids : List Vec3) (m0 : List (Vec3 × Bool)) :
    ∀ p ∈ ids.foldl (fun acc id => putVal acc id false) m0,
      (p : Vec3 × Bool).1 ∈ ids ∨ p ∈ m0 := by
  induction ids generalizing m0 with
  | nil => exact fun p hp => Or.inr hp
  | cons q rest ih =>
    intro p hp
    simp only [List.foldl_cons] at hp
    rcases ih (putVal m0 q false) p hp with h | h
    · exact Or.inl (List.mem_cons_of_mem _ h)
    · rcases List.mem_cons.1 h with h2 | h2
      · left
        rw [h2]
        exact List.mem_cons_self _ _
      · exact Or.inr (List.mem_of_mem_filter h2)

/-- C6 counterexample: with the viewer in chunk (0,0) and render radius 2,
the chunk coordinate (2,0,0) satisfies the claimed circular condition
dx*dx+dz*dz ≤ 4 but is NOT in the computed needed set, because the loops
`for dx := -n; dx < n` exclude dx = n (and likewise dz = n). -/
theorem c6_counterexample :
    Vec3.mk 2 0 0 ∉ neededChunks 2 0 0 ∧ (2 : Int) * 2 + 0 * 0 ≤ 2 * 2 := by
  constructor
  · decide
  · decide

/-- C6 (amended): with the viewer in chunk (0,0) and render radius 2, the
needed set computed by one mesh-cache update pass is exactly the set of
coordinates (dx,0,dz) with -2 ≤ dx < 2, -2 ≤ dz < 2 and dx*dx+dz*dz ≤ 4 —
the half-open square cut of the circular footprint, which excludes (2,0)
and (0,2) but contains (-2,0) and (0,-2); and after any pass (any radius,
viewer chunk, frustum and prior cache) every coordinate still present in
the mesh cache lies in the computed needed set. -/
theorem c6_needed_set_and_retention (planes : List Plane) (cam : Vec3)
    (n : Int) (mc : List (Vec3 × Bool)) :
    (∀ id : Vec3, id ∈ neededChunks 2 0 0 ↔
      (-2 ≤ id.X ∧ id.X < 2 ∧ id.Y = 0 ∧ -2 ≤ id.Z ∧ id.Z < 2 ∧
        id.X * id.X + id.Z * id.Z ≤ 4)) ∧
    (∀ p ∈ updateMeshCache planes cam n mc,
      (p : Vec3 × Bool).1 ∈ neededChunks n cam.X cam.Z) := by
  constructor
  · intro id
    rw [mem_neededChunks]
    constructor
    · rintro ⟨dx, dz, h1, h2, h3, h4, h5, rfl⟩
      dsimp only
      simp only [zero_add]
      refine ⟨by omega, by omega, trivial, by omega, by omega, by omega⟩
    · rintro ⟨hx1, hx2, hy, hz1, hz2, hd⟩
      rcases id with ⟨a, b, c⟩
      simp only at hx1 hx2 hy hz1 hz2 hd
      subst hy
      exact ⟨a, c, by omega, by omega, by omega, by omega, by omega,
        by rw [Vec3.mk.injEq]; omega⟩
  · intro p hp
    simp only [updateMeshCache] at hp
    rcases foldPutFalse_subset _ _ p hp with h | h
    · -- p.1 was built: it came from the truncated sorted build list
      have hsort : p.1 ∈ sortChunks planes cam.X cam.Z
          ((neededChunks n cam.X cam.Z).filter (fun id =>
            match findVal mc id with
            | none => true
            | some d => d)) := by
        split_ifs at h with hlen
        · exact List.take_subset _ _ h
        · exact h
      have hperm : p.1 ∈ (neededChunks n cam.X cam.Z).filter (fun id =>
          match findVal mc id with
          | none => true
          | some d => d) :=
        (List.mem_insertionSort _).1 hsort
      exact List.mem_of_mem_filter hperm
    · -- p survived the removal pass: its coordinate must be needed
      have hmc : p ∈ mc := List.mem_of_mem_filter h
      have hkeep := of_decide_eq_true ((List.mem_filter.1 h).2)
      by_contra hnot
      exact hkeep (List.mem_append_left _
        (List.mem_filter.2
          ⟨List.mem_map_of_mem Prod.fst hmc, decide_eq_true hnot⟩))

/-! ## Ordered cursor scan of the durable store (store.go `RangeBlocks`)

Bolt stores keys in byte-lexicographic order and its cursor iterates in
that order; this external contract is modelled by sorting the bucket's
bindings at scan time.  `Seek(k)` positions the cursor at the first key
not below `k`, and the loop visits entries until the decoded chunk
coordinate differs from the requested one. -/

/-- Byte-lexicographic strict order on keys (`bytes.Compare < 0`). -/
def bytesLt : List Nat → List Nat → Bool
  | [], [] => false
  | [], _ :: _ => true
  | _ :: _, [] => false
  | a :: as, b :: bs =>
    if a < b then true else if b < a then false else bytesLt as bs

theorem bytesLt_irrefl (a : List Nat) : bytesLt a a = false := by
  induction a with
  | nil => rfl
  | cons x xs ih => simp [bytesLt, ih]

theorem bytesLt_trans : ∀ {a b c : List Nat}, bytesLt a b = true →
    bytesLt b c = true → bytesLt a c = true
  | [], [], _ :: _, _, _ => rfl
  | [], _ :: _, _ :: _, _, _ => rfl
  | a :: as, b :: bs, c :: cs, h1, h2 => by
    simp only [bytesLt] at h1 h2 ⊢
    by_cases hab : a < b
    · by_cases hbc : b < c
      · rw [if_pos (by omega)]
      · rw [if_neg hbc] at h2
        by_cases hcb : c < b
        · rw [if_pos hcb] at h2; cases h2
        · rw [if_pos (by omega)]
    · rw [if_neg hab] at h1
      by_cases hba : b < a
      · rw [if_pos hba] at h1; cases h1
      · rw [if_neg hba] at h1
        by_cases hbc : b < c
        · rw [if_pos (by omega)]
        · rw [if_neg hbc] at h2
          by_cases hcb : c < b
          · rw [if_pos hcb] at h2; cases h2
          · rw [if_neg hcb] at h2
            rw [if_neg (by omega), if_neg (by omega)]
            exact bytesLt_trans h1 h2

theorem bytesLt_total : ∀ {a b : List Nat}, bytesLt a b = false →
    bytesLt b a = false → a = b
  | [], [], _, _ => rfl
  | [], _ :: _, h1, _ => by cases h1
  | _ :: _, [], _, h2 => by cases h2
  | a :: as, b :: bs, h1, h2 => by
    simp only [bytesLt] at h1 h2
    by_cases hab : a < b
    · rw [if_pos hab] at h1; cases h1
    · by_cases hba : b < a
      · rw [if_pos hba] at h2; cases h2
      · rw [if_neg hab, if_neg (by omega)] at h1
        rw [if_neg hba, if_neg (by omega)] at h2
        have hx : a = b := by omega
        rw [hx, bytesLt_total h1 h2]

theorem bytesLt_append_same : ∀ (p a b : List Nat),
    bytesLt (p ++ a) (p ++ b) = bytesLt a b
  | [], _, _ => rfl
  | x :: xs, a, b => by
    simp only [List.cons_append, bytesLt]
    rw [if_neg (by omega), if_neg (by omega)]
    exact bytesLt_append_same xs a b

theorem bytesLt_append_of_ne : ∀ (p q a b : List Nat),
    p.length = q.length → p ≠ q →
    bytesLt (p ++ a) (q ++ b) = bytesLt p q
  | [], [], _, _, _, hne => absurd rfl hne
  | [], _ :: _, _, _, hl, _ => by cases hl
  | _ :: _, [], _, _, hl, _ => by cases hl
  | x :: xs, y :: ys, a, b, hl, hne => by
    simp only [List.cons_append, bytesLt]
    by_cases hxy : x < y
    · rw [if_pos hxy, if_pos hxy]
    · by_cases hyx : y < x
      · rw [if_neg hxy, if_pos hyx, if_neg hxy, if_pos hyx]
      · have hx : x = y := by omega
        rw [if_neg hxy, if_neg hyx, if_neg hxy, if_neg hyx]
        have hxs : xs ≠ ys := by
          intro hh
          exact hne (by rw [hx, hh])
        exact bytesLt_append_of_ne xs ys a b (by simpa using hl) hxs

theorem bytesLt_zeros : ∀ (n : Nat) (a : List Nat), a.length = n →
    bytesLt a (List.replicate n 0) = false
  | 0, [], _ => rfl
  | 0, _ :: _, h => by cases h
  | n + 1, [], h => by cases h
  | n + 1, x :: xs, h => by
    simp only [List.replicate, bytesLt]
    rw [if_neg (by omega)]
    by_cases hx : 0 < x
    · rw [if_pos hx]
    · rw [if_neg hx]
      exact bytesLt_zeros n xs (by simpa using h)

/-- Coordinate component representable as an int32 (Go's `int32(x)`
truncation is lossless exactly on this range). -/
def inRange32 (x : Int) : Prop := -2147483648 ≤ x ∧ x < 2147483648

/-- Coordinate whose three components are int32-representable. -/
def vecRange (v : Vec3) : Prop :=
  inRange32 v.X ∧ inRange32 v.Y ∧ inRange32 v.Z

instance (x : Int) : Decidable (inRange32 x) := by
  unfold inRange32; infer_instance

instance (v : Vec3) : Decidable (vecRange v) := by
  unfold vecRange; infer_instance

theorem digits_recompose (n : Nat) (h : n < 4294967296) :
    n % 256 + 256 * (n / 256 % 256) + 65536 * (n / 65536 % 256)
      + 16777216 * (n / 16777216 % 256) = n := by
  have e1 : n / 65536 = n / 256 / 256 := by rw [Nat.div_div_eq_div_mul]
  have e2 : n / 16777216 = n / 65536 / 256 := by rw [Nat.div_div_eq_div_mul]
  omega

theorem dec32_le32 {x : Int} (h1 : -2147483648 ≤ x) (h2 : x < 2147483648) :
    dec32 (le32 x) = x := by
  have hlt : (x % 4294967296).toNat < 4294967296 := by omega
  have hrec := digits_recompose _ hlt
  simp only [le32, dec32]
  rw [hrec]
  split_ifs with hcase <;> omega

theorem chunkid_range {v : Vec3} (hv : vecRange v) : vecRange v.Chunkid := by
  obtain ⟨⟨hx1, hx2⟩, _, ⟨hz1, hz2⟩⟩ := hv
  have hfx : Int.fdiv v.X 32 = v.X / 32 := Int.fdiv_eq_ediv _ (by norm_num)
  have hfz : Int.fdiv v.Z 32 = v.Z / 32 := Int.fdiv_eq_ediv _ (by norm_num)
  refine ⟨?_, ?_, ?_⟩ <;>
    simp only [Vec3.Chunkid, ChunkWidth, inRange32, hfx, hfz] <;> omega

theorem le32_length (x : Int) : (le32 x).length = 4 := rfl

theorem encodeBlockDbKey_length (cid bid : Vec3) :
    (encodeBlockDbKey cid bid).length = 20 := by
  simp [encodeBlockDbKey, le32]

theorem decode_encode (v : Vec3) (hv : vecRange v) :
    decodeBlockDbKey (encodeBlockDbKey v.Chunkid v) = some (v.Chunkid, v) := by
  obtain ⟨hx, hy, hz⟩ := hv
  have hc := chunkid_range ⟨hx, hy, hz⟩
  obtain ⟨hcx, _, hcz⟩ := hc
  have ht0 : (encodeBlockDbKey v.Chunkid v).take 4 = le32 v.Chunkid.X := by
    simp [encodeBlockDbKey, le32]
  have hd4 : (encodeBlockDbKey v.Chunkid v).drop 4
      = le32 v.Chunkid.Z ++ (le32 v.X ++ le32 v.Y ++ le32 v.Z) := by
    simp [encodeBlockDbKey, le32]
  have hd8 : (encodeBlockDbKey v.Chunkid v).drop 8
      = le32 v.X ++ le32 v.Y ++ le32 v.Z := by
    simp [encodeBlockDbKey, le32]
  have hd12 : (encodeBlockDbKey v.Chunkid v).drop 12
      = le32 v.Y ++ le32 v.Z := by
    simp [encodeBlockDbKey, le32]
  have hd16 : (encodeBlockDbKey v.Chunkid v).drop 16 = le32 v.Z := by
    simp [encodeBlockDbKey, le32]
  rw [decodeBlockDbKey, if_pos (encodeBlockDbKey_length v.Chunkid v)]
  rw [ht0, hd4, hd8, hd12, hd16]
  rw [List.take_left' (le32_length _), List.take_left' (le32_length _)]
  rw [show (le32 v.X ++ le32 v.Y ++ le32 v.Z).take 4 = le32 v.X by
    rw [List.append_assoc]; exact List.take_left' (le32_length _)]
  rw [show (le32 v.Z).take 4 = le32 v.Z from
    List.take_of_length_le (by rw [le32_length])]
  rw [dec32_le32 hcx.1 hcx.2, dec32_le32 hcz.1 hcz.2, dec32_le32 hx.1 hx.2,
    dec32_le32 hy.1 hy.2, dec32_le32 hz.1 hz.2]
  have hcond : (Vec3.mk v.X v.Y v.Z).Chunkid
      = Vec3.mk v.Chunkid.X 0 v.Chunkid.Z := rfl
  rw [if_pos hcond]
  rfl

theorem encKey_inj {u v : Vec3} (hu : vecRange u) (hv : vecRange v)
    (h : encodeBlockDbKey u.Chunkid u = encodeBlockDbKey v.Chunkid v) :
    u = v := by
  have h1 := decode_encode u hu
  have h2 := decode_encode v hv
  rw [h, h2] at h1
  simpa using congrArg (fun p => (p.map Prod.snd)) h1.symm

/-- Bucket-order relation on bindings: not strictly above in byte order
(the total preorder in which the bolt cursor iterates). -/
def keyLe (p q : List Nat × Nat) : Prop := bytesLt q.1 p.1 = false

instance : DecidableRel keyLe := fun p q => by unfold keyLe; infer_instance

instance : IsTotal (List Nat × Nat) keyLe :=
  ⟨fun p q => by
    unfold keyLe
    by_cases h : bytesLt q.1 p.1 = false
    · exact Or.inl h
    · right
      have hq : bytesLt q.1 p.1 = true := by simpa using h
      by_cases h2 : bytesLt p.1 q.1 = true
      · have h3 := bytesLt_trans hq h2
        rw [bytesLt_irrefl] at h3
        cases h3
      · simpa using h2⟩

instance : IsTrans (List Nat × Nat) keyLe :=
  ⟨fun a b c hab hbc => by
    unfold keyLe at hab hbc ⊢
    by_cases hca : bytesLt c.1 a.1 = true
    · exfalso
      by_cases hab2 : bytesLt a.1 b.1 = true
      · have h3 := bytesLt_trans hca hab2
        rw [hbc] at h3
        cases h3
      · have hab3 : a.1 = b.1 := bytesLt_total (by simpa using hab2) hab
        rw [hab3, hbc] at hca
        cases hca
    · simpa using hca⟩

/-- Bucket bindings in cursor order: the external ordered store contract
(bolt keeps keys byte-sorted) applied to the bucket contents. -/
def sortKV (s : List (List Nat × Nat)) : List (List Nat × Nat) :=
  s.insertionSort keyLe

/-- Cursor loop of store.go `Store.RangeBlocks`: visit entries while the
decoded chunk coordinate equals the requested one, `break` at the first
mismatch; `none` models a decode panic. -/
def scanFrom (id : Vec3) : List (List Nat × Nat) → Option (List (Vec3 × Int))
  | [] => some []
  | (k, v) :: rest =>
    match decodeBlockDbKey k with
    | none => none
    | some (cid, bid) =>
      if cid = id then
        match scanFrom id rest with
        | none => none
        | some l => some ((bid, decodeBlockDbValue v) :: l)
      else some []

/-- Chunk scan, from store.go `Store.RangeBlocks`: `Seek` to the key of
block (0,0,0) of the chunk (drop the keys strictly below it in cursor
order) and run the visit loop. -/
def StoreState.rangeBlocks (s : StoreState) (id : Vec3) :
    Option (List (Vec3 × Int)) :=
  scanFrom id ((sortKV s.blocks).dropWhile
    (fun p => bytesLt p.1 (encodeBlockDbKey id ⟨0, 0, 0⟩)))

/-- Durable store resulting from a sequence of block writes on a fresh
store. -/
def storeOfWrites (ws : List (Vec3 × Int)) : StoreState :=
  ws.foldl (fun s q => s.updateBlock q.1 q.2) ⟨[], []⟩

/-- Latest write to a coordinate in a write sequence (later writes in the
list override earlier ones). -/
def lastWrite : List (Vec3 × Int) → Vec3 → Option Int
  | [], _ => none
  | (k, v) :: rest, b =>
    match lastWrite rest b with
    | some w => some w
    | none => if k = b then some v else none

theorem storeWrites_findVal (ws : List (Vec3 × Int)) (s : StoreState)
    (hws : ∀ p ∈ ws, vecRange (p : Vec3 × Int).1) (b : Vec3)
    (hb : vecRange b) :
    findVal (ws.foldl (fun s q => s.updateBlock q.1 q.2) s).blocks
        (encodeBlockDbKey b.Chunkid b)
      = match lastWrite ws b with
        | some w => some (encodeBlockDbValue w)
        | none => findVal s.blocks (encodeBlockDbKey b.Chunkid b) := by
  induction ws generalizing s with
  | nil => rfl
  | cons q rest ih =>
    rcases q with ⟨k, v⟩
    have hkr : vecRange k := hws (k, v) (List.mem_cons_self _ _)
    simp only [List.foldl_cons, lastWrite]
    rw [ih _ (fun p hp => hws p (List.mem_cons_of_mem _ hp))]
    cases hlw : lastWrite rest b with
    | some w => rfl
    | none =>
      simp only [StoreState.updateBlock]
      by_cases hkb : k = b
      · subst hkb
        rw [if_pos rfl]
        exact findVal_putVal_self ..
      · rw [if_neg hkb]
        exact findVal_putVal_ne _ _ _ _
          (fun he => hkb (encKey_inj hb hkr he).symm)

theorem putVal_nodup {α β : Type} [DecidableEq α] {l : List (α × β)}
    (k : α) (v : β) (h : (l.map Prod.fst).Nodup) :
    ((putVal l k v).map Prod.fst).Nodup := by
  simp only [putVal, List.map_cons, List.nodup_cons]
  constructor
  · intro hmem
    simp only [List.mem_map] at hmem
    obtain ⟨p, hp, hpk⟩ := hmem
    exact absurd hpk (of_decide_eq_true ((List.mem_filter.1 hp).2))
  · exact h.sublist ((List.filter_sublist _).map Prod.fst)

theorem storeWrites_nodup (ws : List (Vec3 × Int)) (s : StoreState)
    (hs : (s.blocks.map Prod.fst).Nodup) :
    ((ws.foldl (fun s q => s.updateBlock q.1 q.2) s).blocks.map
      Prod.fst).Nodup := by
  induction ws generalizing s with
  | nil => exact hs
  | cons q rest ih => exact ih _ (putVal_nodup _ _ hs)

/-- Shape of a bucket binding produced by `Store.UpdateBlock`: an encoded
in-range coordinate with an encoded in-range value. -/
def goodEntry (e : List Nat × Nat) : Prop :=
  ∃ b w, vecRange b ∧ 0 ≤ w ∧ w < 4294967296 ∧
    e.1 = encodeBlockDbKey b.Chunkid b ∧ e.2 = encodeBlockDbValue w

theorem storeWrites_shape (ws : List (Vec3 × Int)) (s : StoreState)
    (hws : ∀ p ∈ ws, vecRange (p : Vec3 × Int).1 ∧ 0 ≤ p.2 ∧ p.2 < 4294967296)
    (hs : ∀ e ∈ s.blocks, goodEntry e) :
    ∀ e ∈ (ws.foldl (fun s q => s.updateBlock q.1 q.2) s).blocks,
      goodEntry e := by
  induction ws generalizing s with
  | nil => exact hs
  | cons q rest ih =>
    simp only [List.foldl_cons]
    apply ih _ (fun p hp => hws p (List.mem_cons_of_mem _ hp))
    intro e he
    simp only [StoreState.updateBlock, putVal] at he
    rcases List.mem_cons.1 he with rfl | he2
    · obtain ⟨h1, h2, h3⟩ := hws q (List.mem_cons_self _ _)
      exact ⟨q.1, q.2, h1, h2, h3, rfl, rfl⟩
    · exact hs e (List.mem_of_mem_filter he2)

theorem mem_iff_findVal {α β : Type} [DecidableEq α] {l : List (α × β)}
    (hnd : (l.map Prod.fst).Nodup) (k : α) (v : β) :
    (k, v) ∈ l ↔ findVal l k = some v := by
  constructor
  · intro hm
    induction l with
    | nil => cases hm
    | cons p rest ih =>
      rcases p with ⟨a, w⟩
      simp only [List.map_cons, List.nodup_cons] at hnd
      rcases List.mem_cons.1 hm with heq | hm2
      · rw [show a = k from (congrArg Prod.fst heq).symm,
          show w = v from (congrArg Prod.snd heq).symm]
        simp [findVal]
      · by_cases hak : a = k
        · exfalso
          apply hnd.1
          rw [hak]
          exact List.mem_map_of_mem Prod.fst hm2
        · simp only [findVal, if_neg hak]
          exact ih hnd.2 hm2
  · exact findVal_mem

/-- Test whether a binding's decoded chunk coordinate is the requested
one (the loop condition of the cursor scan). -/
def entryChunkIs (c : Vec3) (e : List Nat × Nat) : Bool :=
  match decodeBlockDbKey e.1 with
  | some (cid, _) => decide (cid = c)
  | none => false

/-- Decoded (block coordinate, value) of a binding, as the cursor scan
hands it to the visitor. -/
def entryDecoded (e : List Nat × Nat) : Vec3 × Int :=
  match decodeBlockDbKey e.1 with
  | some (_, bid) => (bid, decodeBlockDbValue e.2)
  | none => (⟨0, 0, 0⟩, 0)

theorem scanFrom_char (c : Vec3) (L : List (List Nat × Nat))
    (hdec : ∀ e ∈ L, (decodeBlockDbKey (e : List Nat × Nat).1).isSome) :
    scanFrom c L
      = some ((L.takeWhile (entryChunkIs c)).map entryDecoded) := by
  induction L with
  | nil => rfl
  | cons e rest ih =>
    rcases e with ⟨k, v⟩
    have hd := hdec (k, v) (List.mem_cons_self _ _)
    rcases hk : decodeBlockDbKey k with _ | ⟨cid, bid⟩
    · rw [hk] at hd
      cases hd
    · simp only [scanFrom, hk]
      by_cases hc : cid = c
      · rw [if_pos hc]
        rw [ih (fun e he => hdec e (List.mem_cons_of_mem _ he))]
        simp only [List.takeWhile_cons, entryChunkIs, hk]
        rw [if_pos (by simp [hc])]
        simp [entryDecoded, hk]
      · rw [if_neg hc]
        simp only [List.takeWhile_cons, entryChunkIs, hk]
        rw [if_neg (by simp [hc])]
        rfl

theorem dropWhile_eq_filter_of_sorted {l : List (List Nat × Nat)}
    (hs : l.Pairwise keyLe) (start : List Nat) :
    l.dropWhile (fun p => bytesLt p.1 start)
      = l.filter (fun p => !bytesLt p.1 start) := by
  induction l with
  | nil => rfl
  | cons x xs ih =>
    rw [List.dropWhile_cons, List.filter_cons]
    by_cases hx : bytesLt x.1 start = true
    · rw [if_pos hx, if_neg (by simp [hx])]
      exact ih (List.Pairwise.of_cons hs)
    · have hx2 : bytesLt x.1 start = false := by simpa using hx
      rw [if_neg (by simp [hx2]), if_pos (by simp [hx2])]
      congr 1
      symm
      apply List.filter_eq_self.2
      intro y hy
      have hxy := (List.pairwise_cons.1 hs).1 y hy
      unfold keyLe at hxy
      simp only [Bool.not_eq_eq_eq_not, Bool.not_true]
      by_contra hys
      have hys2 : bytesLt y.1 start = true := by simpa using hys
      by_cases hsx : bytesLt start x.1 = true
      · have h3 := bytesLt_trans hys2 hsx
        rw [hxy] at h3
        cases h3
      · have heq : start = x.1 := bytesLt_total (by simpa using hsx) hx2
        rw [heq, hxy] at hys2
        cases hys2

theorem encVal_roundtrip {w : Int} (h1 : 0 ≤ w) (h2 : w < 4294967296) :
    decodeBlockDbValue (encodeBlockDbValue w) = w := by
  simp only [decodeBlockDbValue, encodeBlockDbValue]
  omega

theorem encVal_inj {w u : Int} (h1 : 0 ≤ w) (h2 : w < 4294967296)
    (h3 : 0 ≤ u) (h4 : u < 4294967296)
    (h : encodeBlockDbValue w = encodeBlockDbValue u) : w = u := by
  simp only [encodeBlockDbValue] at h
  omega

theorem lastWrite_mem {ws : List (Vec3 × Int)} {b : Vec3} {w : Int}
    (h : lastWrite ws b = some w) : (b, w) ∈ ws := by
  induction ws with
  | nil => cases h
  | cons q rest ih =>
    rcases q with ⟨k, v⟩
    simp only [lastWrite] at h
    cases hlw : lastWrite rest b with
    | some w2 =>
      rw [hlw] at h
      cases h
      exact List.mem_cons_of_mem _ (ih hlw)
    | none =>
      rw [hlw] at h
      by_cases hk : k = b
      · rw [if_pos hk] at h
        cases h
        subst hk
        exact List.mem_cons_self _ _
      · rw [if_neg hk] at h
        cases h

/-- Eight-byte chunk part of a block key: the keys of a chunk are exactly
those with this prefix. -/
def chunkPrefix (c : Vec3) : List Nat := le32 c.X ++ le32 c.Z

theorem encKey_split (cid bid : Vec3) :
    encodeBlockDbKey cid bid
      = chunkPrefix cid ++ (le32 bid.X ++ le32 bid.Y ++ le32 bid.Z) := by
  simp [encodeBlockDbKey, chunkPrefix, List.append_assoc]

theorem chunkPrefix_length (c : Vec3) : (chunkPrefix c).length = 8 := by
  simp [chunkPrefix, le32]

theorem keySuffix_length (b : Vec3) :
    (le32 b.X ++ le32 b.Y ++ le32 b.Z).length = 12 := by
  simp [le32]

theorem le32_inj {x y : Int} (hx : inRange32 x) (hy : inRange32 y)
    (h : le32 x = le32 y) : x = y := by
  have h1 := dec32_le32 hx.1 hx.2
  have h2 := dec32_le32 hy.1 hy.2
  rw [← h1, ← h2, h]

theorem chunkPrefix_inj {u v : Vec3} (hux : inRange32 u.X)
    (huz : inRange32 u.Z) (hvx : inRange32 v.X) (hvz : inRange32 v.Z)
    (hy : u.Y = v.Y) (h : chunkPrefix u = chunkPrefix v) : u = v := by
  have hx : le32 u.X = le32 v.X := by
    have := congrArg (List.take 4) h
    rwa [chunkPrefix, chunkPrefix, List.take_left' (le32_length _),
      List.take_left' (le32_length _)] at this
  have hz : le32 u.Z = le32 v.Z := by
    have := congrArg (List.drop 4) h
    rwa [chunkPrefix, chunkPrefix, List.drop_left' (le32_length _),
      List.drop_left' (le32_length _)] at this
  rcases u with ⟨a, b, d⟩
  rcases v with ⟨a2, b2, d2⟩
  rw [Vec3.mk.injEq]
  exact ⟨le32_inj hux hvx hx, hy, le32_inj huz hvz hz⟩

theorem startkey_eq (c : Vec3) :
    encodeBlockDbKey c ⟨0, 0, 0⟩ = chunkPrefix c ++ List.replicate 12 0 := by
  rw [encKey_split]
  rfl

theorem takeWhile_eq_filter_of_sep {l : List (List Nat × Nat)}
    {p : List Nat × Nat → Bool} (hs : l.Pairwise keyLe)
    (hsep : ∀ a ∈ l, ∀ b ∈ l, p a = true → p b = false →
      bytesLt a.1 b.1 = true) :
    l.takeWhile p = l.filter p := by
  induction l with
  | nil => rfl
  | cons x xs ih =>
    rw [List.takeWhile_cons, List.filter_cons]
    by_cases hx : p x = true
    · rw [if_pos hx, if_pos hx]
      exact congrArg _ (ih (List.Pairwise.of_cons hs)
        (fun a ha b hb => hsep a (List.mem_cons_of_mem _ ha) b
          (List.mem_cons_of_mem _ hb)))
    · have hx2 : p x = false := by simpa using hx
      rw [if_neg (by simp [hx2]), if_neg (by simp [hx2])]
      symm
      apply List.filter_eq_nil_iff.2
      intro y hy
      intro hpy
      have h1 := hsep y (List.mem_cons_of_mem _ hy) x (List.mem_cons_self _ _)
        hpy hx2
      have h2 := (List.pairwise_cons.1 hs).1 y hy
      unfold keyLe at h2
      rw [h1] at h2
      cases h2

/-- C4: for every finite sequence of block overrides written through
`Store.UpdateBlock` (coordinates and values in 32-bit range, as the
little-endian int32 encoding requires) and every canonical chunk
coordinate c, `Store.RangeBlocks(c)` panics nowhere and visits exactly the
written overrides whose block coordinate lies in chunk c, once each, with
its latest written value: the key encoding makes all keys of a chunk one
contiguous byte-lexicographic range starting at the key of block (0,0,0),
so the cursor scan that stops at the first key of a different chunk misses
none of them. -/
theorem c4_range_blocks_exact (ws : List (Vec3 × Int)) (c : Vec3)
    (hws : ∀ p ∈ ws, vecRange (p : Vec3 × Int).1 ∧ 0 ≤ p.2 ∧ p.2 < 4294967296)
    (hcr : vecRange c) (hcy : c.Y = 0) :
    ∃ l, (storeOfWrites ws).rangeBlocks c = some l ∧
      (∀ b w, (b, w) ∈ l ↔ b.Chunkid = c ∧ lastWrite ws b = some w) ∧
      (l.map Prod.fst).Nodup := by
  have hshape : ∀ e ∈ (storeOfWrites ws).blocks, goodEntry e :=
    storeWrites_shape ws ⟨[], []⟩ hws (by intro e he; cases he)
  have hnodup : ((storeOfWrites ws).blocks.map Prod.fst).Nodup :=
    storeWrites_nodup ws ⟨[], []⟩ (by simp)
  have hfind : ∀ b : Vec3, vecRange b →
      findVal (storeOfWrites ws).blocks (encodeBlockDbKey b.Chunkid b)
        = match lastWrite ws b with
          | some w => some (encodeBlockDbValue w)
          | none => none := by
    intro b hb
    have h2 := storeWrites_findVal ws ⟨[], []⟩ (fun p hp => (hws p hp).1) b hb
    refine Eq.trans h2 ?_
    cases lastWrite ws b <;> rfl
  set B := (storeOfWrites ws).blocks with hB
  have hsorted : (sortKV B).Pairwise keyLe := List.sorted_insertionSort keyLe B
  have hperm : List.Perm (sortKV B) B := List.perm_insertionSort keyLe B
  have hshapeS : ∀ e ∈ sortKV B, goodEntry e :=
    fun e he => hshape e (hperm.mem_iff.1 he)
  set start := encodeBlockDbKey c ⟨0, 0, 0⟩ with hstart
  have hdrop : (sortKV B).dropWhile (fun p => bytesLt p.1 start)
      = (sortKV B).filter (fun p => !bytesLt p.1 start) :=
    dropWhile_eq_filter_of_sorted hsorted start
  set L := (sortKV B).filter (fun p => !bytesLt p.1 start) with hL
  have hLsub : ∀ e ∈ L, e ∈ sortKV B := fun e he => List.mem_of_mem_filter he
  have hLsorted : L.Pairwise keyLe := hsorted.filter _
  have hshapeL : ∀ e ∈ L, goodEntry e := fun e he => hshapeS e (hLsub e he)
  have hdecL : ∀ e ∈ L, (decodeBlockDbKey (e : List Nat × Nat).1).isSome := by
    intro e he
    obtain ⟨b2, w2, hb2, _, _, hk, _⟩ := hshapeL e he
    rw [hk, decode_encode b2 hb2]
    rfl
  have hisC : ∀ (e : List Nat × Nat) (b2 : Vec3), vecRange b2 →
      e.1 = encodeBlockDbKey b2.Chunkid b2 →
      (entryChunkIs c e = true ↔ b2.Chunkid = c) := by
    intro e b2 hb2 hk
    simp only [entryChunkIs, hk, decode_encode b2 hb2]
    simp
  have hsep : ∀ a ∈ L, ∀ b ∈ L, entryChunkIs c a = true →
      entryChunkIs c b = false → bytesLt a.1 b.1 = true := by
    intro a ha b hb hpa hpb
    obtain ⟨ba, wa, hba, _, _, hka, _⟩ := hshapeL a ha
    obtain ⟨bb, wb, hbb, _, _, hkb, _⟩ := hshapeL b hb
    have hca : ba.Chunkid = c := (hisC a ba hba hka).1 hpa
    have hcb : bb.Chunkid ≠ c := by
      intro hq
      have h2 := (hisC b bb hbb hkb).2 hq
      rw [hpb] at h2
      cases h2
    have hpre_ne : chunkPrefix bb.Chunkid ≠ chunkPrefix c := by
      intro hq
      exact hcb (chunkPrefix_inj (chunkid_range hbb).1 (chunkid_range hbb).2.2
        hcr.1 hcr.2.2 (by rw [hcy]; rfl) hq)
    have hbL : bytesLt b.1 start = false := by
      have h2 := (List.mem_filter.1 hb).2
      simpa using h2
    have hPbP : bytesLt (chunkPrefix bb.Chunkid) (chunkPrefix c) = false := by
      have h2 := hbL
      rw [hkb, encKey_split, hstart, startkey_eq,
        bytesLt_append_of_ne _ _ _ _
          (by rw [chunkPrefix_length, chunkPrefix_length]) hpre_ne] at h2
      exact h2
    have hPcP : bytesLt (chunkPrefix c) (chunkPrefix bb.Chunkid) = true := by
      by_cases hq : bytesLt (chunkPrefix c) (chunkPrefix bb.Chunkid) = true
      · exact hq
      · exact absurd (bytesLt_total (by simpa using hq) hPbP).symm hpre_ne
    rw [hka, hkb, encKey_split, encKey_split, hca,
      bytesLt_append_of_ne _ _ _ _
        (by rw [chunkPrefix_length, chunkPrefix_length])
        (fun hq => hpre_ne hq.symm)]
    exact hPcP
  have htake : L.takeWhile (entryChunkIs c) = L.filter (entryChunkIs c) :=
    takeWhile_eq_filter_of_sep hLsorted hsep
  have hscan := scanFrom_char c L hdecL
  refine ⟨(L.filter (entryChunkIs c)).map entryDecoded, ?_, ?_, ?_⟩
  · rw [StoreState.rangeBlocks, hdrop, hscan, htake]
  · intro b w
    constructor
    · intro hm
      simp only [List.mem_map] at hm
      obtain ⟨e, heF, hdec_e⟩ := hm
      have heL : e ∈ L := List.mem_of_mem_filter heF
      have hisCe : entryChunkIs c e = true := (List.mem_filter.1 heF).2
      obtain ⟨b2, w2, hb2, hw2a, hw2b, hk, hv⟩ := hshapeL e heL
      have hchunk : b2.Chunkid = c := (hisC e b2 hb2 hk).1 hisCe
      have hde : entryDecoded e = (b2, w2) := by
        simp only [entryDecoded, hk, decode_encode b2 hb2]
        rw [hv, encVal_roundtrip hw2a hw2b]
      have hmemB : e ∈ B := hperm.mem_iff.1 (hLsub e heL)
      have hfindB : findVal B e.1 = some e.2 :=
        (mem_iff_findVal hnodup e.1 e.2).1 hmemB
      rw [hk, hv] at hfindB
      cases hlw : lastWrite ws b2 with
      | none =>
        exfalso
        have h2 := hfind b2 hb2
        rw [hlw] at h2
        rw [h2] at hfindB
        cases hfindB
      | some w3 =>
        have h2 := hfind b2 hb2
        rw [hlw] at h2
        rw [h2] at hfindB
        have hw3 := hws (b2, w3) (lastWrite_mem hlw)
        have hw3w2 : w3 = w2 := encVal_inj hw3.2.1 hw3.2.2 hw2a hw2b
          (by simpa using hfindB)
        rw [hde] at hdec_e
        have hbb : b = b2 := (congrArg Prod.fst hdec_e).symm
        have hww : w = w2 := (congrArg Prod.snd hdec_e).symm
        subst hbb
        subst hww
        rw [hlw, hw3w2]
        exact ⟨hchunk, rfl⟩
    · rintro ⟨hbc, hlw⟩
      obtain ⟨hbr, hw1, hw2⟩ := hws (b, w) (lastWrite_mem hlw)
      have hfb : findVal B (encodeBlockDbKey b.Chunkid b)
          = some (encodeBlockDbValue w) := by
        have h2 := hfind b hbr
        rw [hlw] at h2
        exact h2
      have hmemB : (encodeBlockDbKey b.Chunkid b, encodeBlockDbValue w) ∈ B :=
        (mem_iff_findVal hnodup _ _).2 hfb
      have hmemS : (encodeBlockDbKey b.Chunkid b, encodeBlockDbValue w)
          ∈ sortKV B := hperm.mem_iff.2 hmemB
      have hlt : bytesLt (encodeBlockDbKey b.Chunkid b) start = false := by
        rw [encKey_split, hbc, hstart, startkey_eq, bytesLt_append_same]
        exact bytesLt_zeros 12 _ (keySuffix_length b)
      have hmemL : (encodeBlockDbKey b.Chunkid b, encodeBlockDbValue w) ∈ L :=
        List.mem_filter.2 ⟨hmemS, by simp [hlt]⟩
      have hC : entryChunkIs c (encodeBlockDbKey b.Chunkid b,
          encodeBlockDbValue w) = true := by
        simp only [entryChunkIs, decode_encode b hbr]
        simp [hbc]
      refine List.mem_map.2 ⟨(encodeBlockDbKey b.Chunkid b,
        encodeBlockDbValue w), List.mem_filter.2 ⟨hmemL, hC⟩, ?_⟩
      simp only [entryDecoded, decode_encode b hbr]
      rw [encVal_roundtrip hw1 hw2]
  · have hkeysS : ((sortKV B).map Prod.fst).Nodup :=
      (hperm.map Prod.fst).nodup_iff.2 hnodup
    have hkeysL : (L.map Prod.fst).Nodup :=
      hkeysS.sublist ((List.filter_sublist _).map Prod.fst)
    have hkeysF : ((L.filter (entryChunkIs c)).map Prod.fst).Nodup :=
      hkeysL.sublist ((List.filter_sublist _).map Prod.fst)
    have hndF : (L.filter (entryChunkIs c)).Nodup := hkeysF.of_map
    rw [List.map_map]
    apply List.Nodup.map_on ?_ hndF
    intro x hx y hy hxy
    obtain ⟨bx, wx, hbx, hwxa, hwxb, hkx, hvx⟩ :=
      hshapeL x (List.mem_of_mem_filter hx)
    obtain ⟨by2, wy, hby, hwya, hwyb, hky, hvy⟩ :=
      hshapeL y (List.mem_of_mem_filter hy)
    have hdx : (Prod.fst ∘ entryDecoded) x = bx := by
      simp only [Function.comp, entryDecoded, hkx, decode_encode bx hbx]
    have hdy : (Prod.fst ∘ entryDecoded) y = by2 := by
      simp only [Function.comp, entryDecoded, hky, decode_encode by2 hby]
    have hxy2 : bx = by2 := by rw [← hdx, ← hdy, hxy]
    have hkeq : x.1 = y.1 := by
      rw [hkx, hky, hxy2]
    exact List.inj_on_of_nodup_map hkeysF hx hy hkeq

/-- C4 witness: a single override written at block (1,2,3) with value 5 is
scanned back exactly once from its chunk (0,0,0). -/
theorem c4_range_blocks_exact_witness :
    ∃ l, (storeOfWrites [(⟨1, 2, 3⟩, 5)]).rangeBlocks ⟨0, 0, 0⟩ = some l ∧
      (∀ b w, (b, w) ∈ l ↔ b.Chunkid = ⟨0, 0, 0⟩ ∧
        lastWrite [(⟨1, 2, 3⟩, 5)] b = some w) ∧
      (l.map Prod.fst).Nodup :=
  c4_range_blocks_exact [(⟨1, 2, 3⟩, 5)] ⟨0, 0, 0⟩ (by decide) (by decide)
    (by decide)

/-! ## Chunk materialization on a store miss (world.go `World.Chunk`)

On a miss, `World.Chunk` creates a fresh chunk, adds every generated
block, replays the durable overrides for the chunk (a stored 0 deletes,
anything else replaces), and finally — through rpc.go `ClientFetchChunk`,
when a client is configured — applies the remote deltas the same way,
writing each non-zero delta through to the durable store, and persists the
remote version stamp exactly when it differs from the one sent.  The
remote server is modelled as a function from the sent version stamp to a
response. -/

/-- Remote chunk-fetch response (`proto.FetchChunkResponse`). -/
structure FetchResponse where
  Version : String
  Blocks : List (Vec3 × Int)

/-- Override replay, the `RangeBlocks` callback in `World.Chunk`:
a stored 0 deletes the block, anything else replaces it. -/
def applyOverrides (c : Chunk) : List (Vec3 × Int) → Option Chunk
  | [] => some c
  | (bid, w) :: rest =>
    if w = 0 then (c.del bid).bind fun c2 => applyOverrides c2 rest
    else (c.add bid w).bind fun c2 => applyOverrides c2 rest

/-- Remote delta replay, the `ClientFetchChunk` callback in `World.Chunk`:
like the override replay, but each non-zero delta is also written through
to the durable store. -/
def applyRemote (c : Chunk) (s : StoreState) :
    List (Vec3 × Int) → Option (Chunk × StoreState)
  | [] => some (c, s)
  | (bid, w) :: rest =>
    if w = 0 then (c.del bid).bind fun c2 => applyRemote c2 s rest
    else (c.add bid w).bind fun c2 =>
      applyRemote c2 (s.updateBlock bid w) rest

/-- Remote fetch, from rpc.go `ClientFetchChunk`: nothing without a
client; otherwise send the locally known version stamp, apply the
response's deltas, and persist the response's version stamp exactly when
it differs from the sent one. -/
def ClientFetchChunk (client : Option (String → FetchResponse))
    (s : StoreState) (id : Vec3) (c : Chunk) : Option (Chunk × StoreState) :=
  match client with
  | none => some (c, s)
  | some srv =>
    (applyRemote c s (srv (s.getChunkVersion id)).Blocks).map fun p =>
      (p.1, if s.getChunkVersion id ≠ (srv (s.getChunkVersion id)).Version
        then p.2.updateChunkVersion id (srv (s.getChunkVersion id)).Version
        else p.2)

/-- Materialization path of `World.Chunk` on a miss: generate, replay
durable overrides, fetch remote deltas, store the chunk. -/
def worldChunkMiss (w : World) (s : StoreState) (id : Vec3)
    (gen : List (Vec3 × Int)) (client : Option (String → FetchResponse)) :
    Option (World × StoreState × Chunk) :=
  (applyAdds (NewChunk id) gen).bind fun c1 =>
  (s.rangeBlocks id).bind fun ovr =>
  (applyOverrides c1 ovr).bind fun c2 =>
  (ClientFetchChunk client s id c2).map fun p =>
    (w.storeChunk id p.1, p.2, p.1)

theorem decode_chunk_check {k : List Nat} {cid bid : Vec3}
    (h : decodeBlockDbKey k = some (cid, bid)) : bid.Chunkid = cid := by
  rw [decodeBlockDbKey] at h
  split_ifs at h with h1 h2
  · simp only [Option.some.injEq, Prod.mk.injEq] at h
    obtain ⟨hc, hb⟩ := h
    rw [← hb, ← hc]
    exact h2

theorem scanFrom_bids (id : Vec3) (L : List (List Nat × Nat))
    (l : List (Vec3 × Int)) (h : scanFrom id L = some l) :
    ∀ p ∈ l, (p : Vec3 × Int).1.Chunkid = id := by
  induction L generalizing l with
  | nil =>
    simp only [scanFrom, Option.some.injEq] at h
    subst h
    intro p hp
    cases hp
  | cons e rest ih =>
    rcases e with ⟨k, v⟩
    rcases hk : decodeBlockDbKey k with _ | ⟨cid, bid⟩
    · simp only [scanFrom, hk] at h
      exact Option.noConfusion h
    · simp only [scanFrom, hk] at h
      by_cases hc : cid = id
      · rw [if_pos hc] at h
        rcases hs : scanFrom id rest with _ | l2
        · simp only [hs] at h
          exact Option.noConfusion h
        · simp only [hs, Option.some.injEq] at h
          subst h
          intro p hp
          rcases List.mem_cons.1 hp with rfl | hp2
          · rw [← hc]
            exact decode_chunk_check hk
          · exact ih l2 hs p hp2
      · rw [if_neg hc] at h
        simp only [Option.some.injEq] at h
        subst h
        intro p hp
        cases hp

theorem rangeBlocks_bids {s : StoreState} {id : Vec3}
    {l : List (Vec3 × Int)} (h : s.rangeBlocks id = some l) :
    ∀ p ∈ l, (p : Vec3 × Int).1.Chunkid = id := by
  rw [StoreState.rangeBlocks] at h
  exact scanFrom_bids id _ l h

theorem lastWrite_cons (k : Vec3) (x : Int) (t : List (Vec3 × Int))
    (b : Vec3) : lastWrite ((k, x) :: t) b
      = match lastWrite t b with
        | some w => some w
        | none => if k = b then some x else none := rfl

theorem lastWrite_append (u v : List (Vec3 × Int)) (b : Vec3) :
    lastWrite (u ++ v) b = match lastWrite v b with
      | some w => some w
      | none => lastWrite u b := by
  induction u with
  | nil =>
    rw [List.nil_append]
    cases lastWrite v b <;> rfl
  | cons q rest ih =>
    rcases q with ⟨k, x⟩
    rw [List.cons_append, lastWrite_cons, lastWrite_cons, ih]
    cases lastWrite v b <;> cases lastWrite rest b <;> rfl

theorem applyAdds_char (c : Chunk) (l : List (Vec3 × Int))
    (h : ∀ p ∈ l, (p : Vec3 × Int).1.Chunkid = c.id) :
    ∃ c2, applyAdds c l = some c2 ∧ c2.id = c.id ∧
      ∀ b, (findVal c2.blocks b).getD 0
        = match lastWrite l b with
          | some w => w
          | none => (findVal c.blocks b).getD 0 := by
  induction l generalizing c with
  | nil => exact ⟨c, rfl, rfl, fun b => rfl⟩
  | cons q rest ih =>
    rcases q with ⟨k, v⟩
    have hk : k.Chunkid = c.id := h (k, v) (List.mem_cons_self _ _)
    have hadd : c.add k v = some ⟨c.id, putVal c.blocks k v⟩ := by
      simp [Chunk.add, hk]
    obtain ⟨c2, h2, hid2, hobs⟩ := ih ⟨c.id, putVal c.blocks k v⟩
      (fun p hp => h p (List.mem_cons_of_mem _ hp))
    refine ⟨c2, by simp [applyAdds, hadd, h2], hid2, fun b => ?_⟩
    rw [hobs b]
    simp only [lastWrite]
    cases lastWrite rest b with
    | some w => rfl
    | none =>
      simp only
      by_cases hkb : k = b
      · subst hkb
        rw [if_pos rfl, findVal_putVal_self]
        rfl
      · rw [if_neg hkb, findVal_putVal_ne _ _ _ _ (fun hq => hkb hq.symm)]

theorem applyOverrides_char (c : Chunk) (l : List (Vec3 × Int))
    (h : ∀ p ∈ l, (p : Vec3 × Int).1.Chunkid = c.id) :
    ∃ c2, applyOverrides c l = some c2 ∧ c2.id = c.id ∧
      ∀ b, (findVal c2.blocks b).getD 0
        = match lastWrite l b with
          | some w => w
          | none => (findVal c.blocks b).getD 0 := by
  induction l generalizing c with
  | nil => exact ⟨c, rfl, rfl, fun b => rfl⟩
  | cons q rest ih =>
    rcases q with ⟨k, v⟩
    have hk : k.Chunkid = c.id := h (k, v) (List.mem_cons_self _ _)
    by_cases hv : v = 0
    · subst hv
      have hdel : c.del k = some ⟨c.id, delVal c.blocks k⟩ := by
        simp [Chunk.del, hk]
      obtain ⟨c2, h2, hid2, hobs⟩ := ih ⟨c.id, delVal c.blocks k⟩
        (fun p hp => h p (List.mem_cons_of_mem _ hp))
      refine ⟨c2, by simp [applyOverrides, hdel, h2], hid2, fun b => ?_⟩
      rw [hobs b]
      simp only [lastWrite]
      cases lastWrite rest b with
      | some w => rfl
      | none =>
        simp only
        by_cases hkb : k = b
        · subst hkb
          rw [if_pos rfl, findVal_delVal_self]
          rfl
        · rw [if_neg hkb, findVal_delVal_ne _ _ _ (fun hq => hkb hq.symm)]
    · have hadd : c.add k v = some ⟨c.id, putVal c.blocks k v⟩ := by
        simp [Chunk.add, hk]
      obtain ⟨c2, h2, hid2, hobs⟩ := ih ⟨c.id, putVal c.blocks k v⟩
        (fun p hp => h p (List.mem_cons_of_mem _ hp))
      refine ⟨c2, by simp [applyOverrides, hadd, h2, hv], hid2, fun b => ?_⟩
      rw [hobs b]
      simp only [lastWrite]
      cases lastWrite rest b with
      | some w => rfl
      | none =>
        simp only
        by_cases hkb : k = b
        · subst hkb
          rw [if_pos rfl, findVal_putVal_self]
          rfl
        · rw [if_neg hkb, findVal_putVal_ne _ _ _ _ (fun hq => hkb hq.symm)]

theorem applyRemote_char (c : Chunk) (s : StoreState) (l : List (Vec3 × Int))
    (h : ∀ p ∈ l, (p : Vec3 × Int).1.Chunkid = c.id) :
    ∃ c2 s2, applyRemote c s l = some (c2, s2) ∧ c2.id = c.id ∧
      s2.chunkVersions = s.chunkVersions ∧
      ∀ b, (findVal c2.blocks b).getD 0
        = match lastWrite l b with
          | some w => w
          | none => (findVal c.blocks b).getD 0 := by
  induction l generalizing c s with
  | nil =>
    exact ⟨c, s, rfl, rfl, rfl,
      fun b => rfl⟩
  | cons q rest ih =>
    rcases q with ⟨k, v⟩
    have hk : k.Chunkid = c.id := h (k, v) (List.mem_cons_self _ _)
    by_cases hv : v = 0
    · subst hv
      have hdel : c.del k = some ⟨c.id, delVal c.blocks k⟩ := by
        simp [Chunk.del, hk]
      obtain ⟨c2, s2, h2, hid2, hver2, hobs⟩ := ih ⟨c.id, delVal c.blocks k⟩ s
        (fun p hp => h p (List.mem_cons_of_mem _ hp))
      refine ⟨c2, s2, by simp [applyRemote, hdel, h2], hid2, hver2,
        fun b => ?_⟩
      rw [hobs b]
      simp only [lastWrite]
      cases lastWrite rest b with
      | some w => rfl
      | none =>
        simp only
        by_cases hkb : k = b
        · subst hkb
          rw [if_pos rfl, findVal_delVal_self]
          rfl
        · rw [if_neg hkb, findVal_delVal_ne _ _ _ (fun hq => hkb hq.symm)]
    · have hadd : c.add k v = some ⟨c.id, putVal c.blocks k v⟩ := by
        simp [Chunk.add, hk]
      obtain ⟨c2, s2, h2, hid2, hver2, hobs⟩ := ih ⟨c.id, putVal c.blocks k v⟩
        (s.updateBlock k v) (fun p hp => h p (List.mem_cons_of_mem _ hp))
      refine ⟨c2, s2, by simp [applyRemote, hadd, h2, hv], hid2,
        hver2.trans rfl, fun b => ?_⟩
      rw [hobs b]
      simp only [lastWrite]
      cases lastWrite rest b with
      | some w => rfl
      | none =>
        simp only
        by_cases hkb : k = b
        · subst hkb
          rw [if_pos rfl, findVal_putVal_self]
          rfl
        · rw [if_neg hkb, findVal_putVal_ne _ _ _ _ (fun hq => hkb hq.symm)]

/-- Remote block deltas a configured client contributes: the response to
the locally known version stamp; nothing without a client. -/
def remoteBlocks (s : StoreState) (id : Vec3) :
    Option (String → FetchResponse) → List (Vec3 × Int)
  | none => []
  | some srv => (srv (s.getChunkVersion id)).Blocks

theorem obs_layer {c0 c1 : Chunk} {u v : List (Vec3 × Int)} {b : Vec3}
    (h1 : (findVal c1.blocks b).getD 0
      = match lastWrite u b with
        | some w => w
        | none => (findVal c0.blocks b).getD 0)
    (h0 : (findVal c0.blocks b).getD 0 = (lastWrite v b).getD 0) :
    (findVal c1.blocks b).getD 0 = (lastWrite (v ++ u) b).getD 0 := by
  rw [h1, lastWrite_append]
  cases lastWrite u b with
  | some w => rfl
  | none => exact h0

/-- C2: when chunk `id` misses the in-memory store, `World.Chunk`
materializes it in order — generated base map first, then every
durable-cache override for the chunk (a stored 0 deletes the block, a
non-zero value replaces it), then, when a remote client is configured,
the remote fetch's block deltas the same way — so each in-chunk
coordinate reads as the last write of the concatenated layers (0 when
none); the remote version stamp is persisted exactly when it differs
from the locally known one, and without a client the durable store is
untouched. -/
theorem c2_chunk_materialization (w : World) (s : StoreState) (id : Vec3)
    (gen ovr : List (Vec3 × Int)) (client : Option (String → FetchResponse))
    (hgen : ∀ p ∈ gen, (p : Vec3 × Int).1.Chunkid = id)
    (hovr : s.rangeBlocks id = some ovr)
    (hrem : ∀ srv, client = some srv →
      ∀ p ∈ (srv (s.getChunkVersion id)).Blocks,
        (p : Vec3 × Int).1.Chunkid = id) :
    ∃ w2 s2 c2, worldChunkMiss w s id gen client = some (w2, s2, c2) ∧
      c2.id = id ∧
      (∀ b, b.Chunkid = id → c2.Block b
        = some ((lastWrite (gen ++ ovr ++ remoteBlocks s id client) b).getD 0)) ∧
      (client = none → s2 = s) ∧
      (∀ srv, client = some srv →
        (s.getChunkVersion id = (srv (s.getChunkVersion id)).Version →
          s2.chunkVersions = s.chunkVersions) ∧
        (s.getChunkVersion id ≠ (srv (s.getChunkVersion id)).Version →
          findVal s2.chunkVersions (encodeVec3 id)
            = some (srv (s.getChunkVersion id)).Version)) := by
  obtain ⟨c1, h1, hid1, hobs1⟩ := applyAdds_char (NewChunk id) gen
    (fun p hp => hgen p hp)
  obtain ⟨c2', h2, hid2, hobs2⟩ := applyOverrides_char c1 ovr
    (fun p hp => (rangeBlocks_bids hovr p hp).trans hid1.symm)
  rcases client with _ | srv
  · refine ⟨w.storeChunk id c2', s, c2',
      by simp [worldChunkMiss, ClientFetchChunk, h1, hovr, h2],
      hid2.trans hid1, ?_, fun _ => rfl, fun srv hs => Option.noConfusion hs⟩
    intro b hb
    have hcid : b.Chunkid = c2'.id := by rw [hb, hid2, hid1]; rfl
    rw [Chunk.Block, if_neg (not_not_intro hcid)]
    have e1 : (findVal c1.blocks b).getD 0 = (lastWrite ([] ++ gen) b).getD 0 :=
      obs_layer (hobs1 b) rfl
    rw [List.nil_append] at e1
    have e2 : (findVal c2'.blocks b).getD 0
        = (lastWrite (gen ++ ovr) b).getD 0 := obs_layer (hobs2 b) e1
    rw [show remoteBlocks s id none = [] from rfl, List.append_nil]
    exact congrArg some e2
  · obtain ⟨c3, s3, h3, hid3, hver3, hobs3⟩ :=
      applyRemote_char c2' s (srv (s.getChunkVersion id)).Blocks
      (fun p hp => ((hrem srv rfl p hp).trans hid1.symm).trans hid2.symm)
    refine ⟨w.storeChunk id c3,
      if s.getChunkVersion id ≠ (srv (s.getChunkVersion id)).Version
        then s3.updateChunkVersion id (srv (s.getChunkVersion id)).Version
        else s3,
      c3,
      by simp [worldChunkMiss, ClientFetchChunk, h1, hovr, h2, h3],
      hid3.trans (hid2.trans hid1), ?_,
      fun hs => Option.noConfusion hs, ?_⟩
    · intro b hb
      have hcid : b.Chunkid = c3.id := by rw [hb, hid3, hid2, hid1]; rfl
      rw [Chunk.Block, if_neg (not_not_intro hcid)]
      have e1 : (findVal c1.blocks b).getD 0
          = (lastWrite ([] ++ gen) b).getD 0 := obs_layer (hobs1 b) rfl
      rw [List.nil_append] at e1
      have e2 : (findVal c2'.blocks b).getD 0
          = (lastWrite (gen ++ ovr) b).getD 0 := obs_layer (hobs2 b) e1
      have e3 : (findVal c3.blocks b).getD 0
          = (lastWrite ((gen ++ ovr) ++ remoteBlocks s id (some srv)) b).getD 0 :=
        obs_layer (hobs3 b) e2
      exact congrArg some e3
    · intro srv2 hs
      injection hs with hs2
      subst hs2
      constructor
      · intro heq
        rw [if_neg (not_not_intro heq)]
        exact hver3
      · intro hne
        rw [if_pos hne, StoreState.updateChunkVersion]
        exact findVal_putVal_self _ _ _

theorem c2_chunk_materialization_witness :
    ∃ w2 s2 c2, worldChunkMiss (NewWorld 1) ⟨[], []⟩ ⟨0, 0, 0⟩
        [(⟨1, 2, 3⟩, 5)] none = some (w2, s2, c2) ∧
      c2.id = ⟨0, 0, 0⟩ ∧
      (∀ b, b.Chunkid = ⟨0, 0, 0⟩ → c2.Block b
        = some ((lastWrite ([(⟨1, 2, 3⟩, 5)] ++ []
            ++ remoteBlocks ⟨[], []⟩ ⟨0, 0, 0⟩ none) b).getD 0)) ∧
      ((none : Option (String → FetchResponse)) = none → s2 = ⟨[], []⟩) ∧
      (∀ srv, (none : Option (String → FetchResponse)) = some srv →
        (StoreState.getChunkVersion ⟨[], []⟩ ⟨0, 0, 0⟩
            = (srv (StoreState.getChunkVersion ⟨[], []⟩ ⟨0, 0, 0⟩)).Version →
          s2.chunkVersions = StoreState.chunkVersions ⟨[], []⟩) ∧
        (StoreState.getChunkVersion ⟨[], []⟩ ⟨0, 0, 0⟩
            ≠ (srv (StoreState.getChunkVersion ⟨[], []⟩ ⟨0, 0, 0⟩)).Version →
          findVal s2.chunkVersions (encodeVec3 ⟨0, 0, 0⟩)
            = some (srv (StoreState.getChunkVersion ⟨[], []⟩ ⟨0, 0, 0⟩)).Version)) :=
  c2_chunk_materialization (NewWorld 1) ⟨[], []⟩ ⟨0, 0, 0⟩
    [(⟨1, 2, 3⟩, 5)] [] none (by decide) rfl
    (fun srv hs => Option.noConfusion hs)

end Gocraft
